import Mathlib

/-!
# thermalcam: colour mapping and 8x8 frame synthesis

A shallow embedding of `main.go` of the thermal camera server.

Modelling conventions.

* `float64` is IEEE 754 binary64.  A value is a rational (the finite values, `fin 0`
  being `+0`), the negative zero, an infinity or a NaN (`F64`).  Every arithmetic
  operation computes the exact rational result and rounds it to the nearest `float64`,
  ties to even (`roundF64`): 53 significant bits, gradual underflow with the spacing
  `2^-1074`, overflow to an infinity from `2^1024 - 2^970` on.  The finite values proper
  are the rationals satisfying `IsF64`; theorems about arbitrary operands assume it of the
  configured range.
* Go's `int` is the 64-bit signed integer.  The conversion `int(f)` of a `float64`
  truncates toward zero; when the truncated value does not fit in an `int`, or `f` is not
  finite, Go leaves the result implementation-dependent.  `float64ToInt` answers `none`
  there.
* `uint8` values are naturals below 256.
* The package-level variables `colors`, `grid`, `minTemp`, `maxTemp` that the functions
  read are explicit parameters.  The table `colors` is filled outside `main.go`; nothing
  below depends on its contents, only on its length and on the entries looked up.
* A run-time panic (index out of range) is an `Except` error.
* The command line is described by what it holds for each of the five declared flags;
  a text that the parser of a flag rejects, a numeral out of range, an undeclared flag or
  a request for help make `flag.Parse()` stop the program.
-/

namespace Thermalcam

/-! ## IEEE 754 binary64 (`float64`) -/

/-- A `float64` value: a finite number (the zero `fin 0` is `+0`), the negative zero, an
infinity or a NaN. -/
inductive F64 where
  | fin (q : ℚ)
  | negZero
  | posInf
  | negInf
  | nan
  deriving DecidableEq

/-- Exponent of the unit in the last place of the binade of `q > 0`: 52 below the binary
logarithm of `q`, and at least -1074 (the subnormal spacing). -/
def quantumExp (q : ℚ) : Int := max (Int.log 2 q - 52) (-1074)

/-- Nearest integer, ties to the even one. -/
def roundHalfEven (x : ℚ) : Int :=
  if x - ⌊x⌋ < 1 / 2 then ⌊x⌋
  else if 1 / 2 < x - ⌊x⌋ then ⌊x⌋ + 1
  else if ⌊x⌋ % 2 = 0 then ⌊x⌋ else ⌊x⌋ + 1

/-- Round `q ≥ 0` to 53 significant bits (fewer below `2^-1022`), exponent unbounded
above: the nearest multiple of the quantum, ties to even. -/
def roundMag (q : ℚ) : ℚ := (roundHalfEven (q / 2 ^ quantumExp q) : ℚ) * 2 ^ quantumExp q

/-- The zero of the given sign. -/
def signedZero (neg : Bool) : F64 := if neg then .negZero else .fin 0

/-- The infinity of the given sign. -/
def signedInf (neg : Bool) : F64 := if neg then .negInf else .posInf

/-- Round a non-zero exact result to `float64` (round to nearest even): overflow gives
the infinity and underflow the zero of the sign of `q`.  At `q = 0` the result is `+0`. -/
def roundF64 (q : ℚ) : F64 :=
  if q < 0 then
    if 2 ^ 1024 ≤ roundMag (-q) then .negInf
    else if roundMag (-q) = 0 then .negZero
    else .fin (-roundMag (-q))
  else
    if 2 ^ 1024 ≤ roundMag q then .posInf else .fin (roundMag q)

namespace F64

/-- Sign bit. -/
def signBit : F64 → Bool
  | fin q => decide (q < 0)
  | negZero => true
  | posInf => false
  | negInf => true
  | nan => false

/-- Value of a finite `float64`. -/
def toRat? : F64 → Option ℚ
  | fin q => some q
  | negZero => some 0
  | _ => none

/-- Go `x - y`. -/
def sub (x y : F64) : F64 :=
  match x, y with
  | nan, _ => nan
  | _, nan => nan
  | posInf, posInf => nan
  | negInf, negInf => nan
  | posInf, _ => posInf
  | negInf, _ => negInf
  | _, posInf => negInf
  | _, negInf => posInf
  | negZero, negZero => fin 0
  | negZero, fin b => if b = 0 then negZero else roundF64 (-b)
  | fin a, negZero => roundF64 a
  | fin a, fin b => roundF64 (a - b)

/-- Go `x * y`. -/
def mul (x y : F64) : F64 :=
  match x.toRat?, y.toRat? with
  | some a, some b =>
    if a * b = 0 then signedZero (xor x.signBit y.signBit) else roundF64 (a * b)
  | some a, none =>
    if y = nan ∨ a = 0 then nan else signedInf (xor x.signBit y.signBit)
  | none, some b =>
    if x = nan ∨ b = 0 then nan else signedInf (xor x.signBit y.signBit)
  | none, none =>
    if x = nan ∨ y = nan then nan else signedInf (xor x.signBit y.signBit)

/-- Go `x / y`. -/
def div (x y : F64) : F64 :=
  match x.toRat?, y.toRat? with
  | some a, some b =>
    if b = 0 then (if a = 0 then nan else signedInf (xor x.signBit y.signBit))
    else if a = 0 then signedZero (xor x.signBit y.signBit)
    else roundF64 (a / b)
  | some _, none =>
    if y = nan then nan else signedZero (xor x.signBit y.signBit)
  | none, some _ =>
    if x = nan then nan else signedInf (xor x.signBit y.signBit)
  | none, none => nan

/-- Go `x < y`. -/
def lt (x y : F64) : Bool :=
  match x, y with
  | nan, _ => false
  | _, nan => false
  | posInf, _ => false
  | _, negInf => false
  | negInf, _ => true
  | _, posInf => true
  | negZero, negZero => false
  | negZero, fin b => decide (0 < b)
  | fin a, negZero => decide (a < 0)
  | fin a, fin b => decide (a < b)

end F64

/-- Least value of Go's 64-bit `int`. -/
def minInt : Int := -(2 ^ 63)

/-- Greatest value of Go's 64-bit `int`. -/
def maxInt : Int := 2 ^ 63 - 1

/-- Go conversion `float64(i)` of an `int`. -/
def intToFloat64 (i : Int) : F64 := roundF64 i

/-- Truncation of a rational toward zero (the integer part). -/
def truncate (q : ℚ) : Int := Int.tdiv q.num (q.den : Int)

/-- Go conversion `int(f)` of a `float64`: the value truncated toward zero when `f` is
finite and the result fits in an `int`; `none` stands for the implementation-dependent
result of converting a NaN, an infinity or an out-of-range value. -/
def float64ToInt (f : F64) : Option Int :=
  match f.toRat? with
  | none => none
  | some q => if minInt ≤ truncate q ∧ truncate q ≤ maxInt then some (truncate q) else none

/-- Source `getColorIndex` (main.go 113-118): index 0 when `temp < *minTemp`, otherwise
`int((temp - *minTemp) * float64(len(colors)-1) / (*maxTemp - *minTemp))`, every
operation in `float64`. -/
def getColorIndex (colors : List Int) (minTemp maxTemp temp : F64) : Option Int :=
  if F64.lt temp minTemp then some 0
  else
    float64ToInt
      (F64.div (F64.mul (F64.sub temp minTemp) (intToFloat64 ((colors.length : Int) - 1)))
        (F64.sub maxTemp minTemp))

/-- Go conversion `uint8(i)` of an `int`: the low eight bits. -/
def toUint8 (i : Int) : Nat := (i % 256).toNat

/-! ## Channel extractors -/

/-- Source `getR` (main.go 151-153): `uint8((i >> 16) & 0x0000FF)`. -/
def getR (i : Int) : Nat := toUint8 (Int.land (i >>> (16 : Nat)) 0x0000FF)

/-- Source `getG` (main.go 156-158): `uint8((i >> 8) & 0x0000FF)`. -/
def getG (i : Int) : Nat := toUint8 (Int.land (i >>> (8 : Nat)) 0x0000FF)

/-- Source `getB` (main.go 161-163): `uint8(i & 0x0000FF)`. -/
def getB (i : Int) : Nat := toUint8 (Int.land i 0x0000FF)

/-! ## Frame renderer -/

/-- Run-time failures of the frame renderer. -/
inductive RenderError where
  /-- The colour index is the implementation-dependent result of `int(f)`. -/
  | undefinedIndex
  /-- Panic of `colors[i]`: index out of range. -/
  | paletteIndexOutOfRange (i : Int)
  /-- Panic of `pixels.Pix[n] = v`: index out of range. -/
  | pixIndexOutOfRange (n : Nat)
  deriving DecidableEq, Repr

/-- The `Pix` slice of `image.NewRGBA(image.Rect(0, 0, w, h))`: four zero bytes for each
pixel of the rectangle (`image.Rect` orders its corners, so the sides are `|w|` and
`|h|`). -/
def newRGBAPix (w h : Int) : List Nat := List.replicate (4 * w.natAbs * h.natAbs) 0

/-- Checked slice lookup `colors[i]` with the index computed by `getColorIndex`. -/
def colorAt (colors : List Int) (i : Option Int) : Except RenderError Int :=
  match i with
  | none => .error .undefinedIndex
  | some i =>
    if i < 0 then .error (.paletteIndexOutOfRange i)
    else
      match colors[i.toNat]? with
      | some c => .ok c
      | none => .error (.paletteIndexOutOfRange i)

/-- Checked slice store `pix[n] = v`. -/
def setPix (pix : List Nat) (n v : Nat) : Except RenderError (List Nat) :=
  if n < pix.length then .ok (pix.set n v) else .error (.pixIndexOutOfRange n)

/-- One iteration of the loop of `createImage` (main.go 132-139) on the reading `t`;
the state is the `Pix` slice and the cursor `n`. -/
def paintCell (colors : List Int) (minTemp maxTemp : F64) (st : List Nat × Nat) (t : F64) :
    Except RenderError (List Nat × Nat) := do
  let color ← colorAt colors (getColorIndex colors minTemp maxTemp t)
  let p ← setPix st.1 st.2 (getR color)
  let p ← setPix p (st.2 + 1) (getG color)
  let p ← setPix p (st.2 + 2) (getB color)
  let p ← setPix p (st.2 + 3) 0xFF
  pure (p, st.2 + 4)

/-- The first half of `createImage` (main.go 130-139): allocate the `w` by `h` RGBA
buffer and paint one pixel for each reading of `grid`, in order.  The result is the
`Pix` slice handed to the resize filter. -/
def fillPixels (colors : List Int) (grid : List F64) (minTemp maxTemp : F64) (w h : Int) :
    Except RenderError (List Nat) := do
  let st ← grid.foldlM (paintCell colors minTemp maxTemp) (newRGBAPix w h, 0)
  pure st.1

/-- Source `createImage` (main.go 128-148).  The resize filter of the `gift` library is
the parameter `resize`, applied to `*newSize` and the painted buffer. -/
def createImage {Img : Type} (resize : Int → List Nat → Img) (colors : List Int)
    (grid : List F64) (minTemp maxTemp : F64) (newSize : Int) (w h : Int) :
    Except RenderError Img := do
  let pixels ← fillPixels colors grid minTemp maxTemp w h
  pure (resize newSize pixels)

/-! ## Start-up -/

/-- What the command line holds for one declared flag: nothing, a well-formed value, or
a text that the parser of the flag rejects as malformed. -/
inductive Arg (α : Type) where
  | absent
  | given (v : α)
  | malformed

/-- A well-formed text for a `float64` flag, as `strconv.ParseFloat` reads it: a decimal
or hexadecimal numeral with the exact value `q`, a zero written with a minus sign, an
infinity or a NaN. -/
inductive FloatText where
  | number (q : ℚ)
  | minusZero
  | infinity (neg : Bool)
  | nan

/-- The command line as `flag.Parse()` sees it.  `undeclared` says that some argument
names a flag that is not declared or asks for the help text. -/
structure Flags where
  f : Arg Int := .absent
  min : Arg FloatText := .absent
  max : Arg FloatText := .absent
  s : Arg Int := .absent
  mock : Arg Bool := .absent
  undeclared : Bool := false

/-- Settings held in the package-level variables after `flag.Parse()`. -/
structure Config where
  /-- Pause between two frames in milliseconds (`time.Sleep(time.Duration(*fps) *
  time.Millisecond)`); the usage text of the flag calls it frames per millisecond. -/
  fps : Int
  minTemp : F64
  maxTemp : F64
  newSize : Int
  mock : Bool
  deriving DecidableEq

/-- Failures of the start-up part of `main`. -/
inductive StartupError where
  /-- The flag parser stops the program: it prints the usage text and exits. -/
  | usage
  /-- The sensor driver `amg8833.NewAMG8833` returned an error: `panic(err)`. -/
  | sensorInit
  deriving DecidableEq, Repr

/-- An `int` flag (`flag.Int`): the default when absent; a numeral outside the 64-bit
range is a parse error. -/
def intFlag (a : Arg Int) (dflt : Int) : Except StartupError Int :=
  match a with
  | .absent => .ok dflt
  | .given v => if minInt ≤ v ∧ v ≤ maxInt then .ok v else .error .usage
  | .malformed => .error .usage

/-- A `float64` flag (`flag.Float64`): the default when absent; a numeral is rounded to
the nearest `float64`, and one that rounds to an infinity is a range error. -/
def floatFlag (a : Arg FloatText) (dflt : F64) : Except StartupError F64 :=
  match a with
  | .absent => .ok dflt
  | .given (.number q) =>
    match roundF64 q with
    | .posInf => .error .usage
    | .negInf => .error .usage
    | x => .ok x
  | .given .minusZero => .ok .negZero
  | .given (.infinity neg) => .ok (signedInf neg)
  | .given .nan => .ok .nan
  | .malformed => .error .usage

/-- A `bool` flag (`flag.Bool`). -/
def boolFlag (a : Arg Bool) (dflt : Bool) : Except StartupError Bool :=
  match a with
  | .absent => .ok dflt
  | .given v => .ok v
  | .malformed => .error .usage

/-- Flag declarations of `main` and `flag.Parse()` (main.go 47-52) with the defaults. -/
def parseFlags (a : Flags) : Except StartupError Config :=
  if a.undeclared then .error .usage
  else do
    let fps ← intFlag a.f 100
    let minTemp ← floatFlag a.min (.fin 26)
    let maxTemp ← floatFlag a.max (.fin 32)
    let newSize ← intFlag a.s 360
    let mock ← boolFlag a.mock false
    pure { fps := fps, minTemp := minTemp, maxTemp := maxTemp, newSize := newSize,
           mock := mock }

/-- Start-up part of source `main` (main.go 45-73): read the flags, then either use the
mock data or initialise the sensor; `sensorOk` is the outcome of `amg8833.NewAMG8833`.
The result is the configuration the server runs with. -/
def main (a : Flags) (sensorOk : Bool) : Except StartupError Config := do
  let c ← parseFlags a
  if c.mock then pure c
  else if sensorOk then pure c
  else .error .sensorInit

/-- The buffer after painting the colour `c` at cursor `n`. -/
def painted (pix : List Nat) (n : Nat) (c : Int) : List Nat :=
  (((pix.set n (getR c)).set (n + 1) (getG c)).set (n + 2) (getB c)).set (n + 3) 0xFF

/-! ## Auxiliary definitions used in the statements and proofs -/

/-- Rationals of the form `m * 2^e` with at most 53 significant bits and `e ≥ -1074`:
the `float64` grid with the exponent unbounded above. -/
def InGrid (f : ℚ) : Prop := ∃ m e : Int, |m| ≤ 2 ^ 53 ∧ -1074 ≤ e ∧ f = m * 2 ^ e

/-- The finite `float64` values: `m * 2^e` with `|m| < 2^53` and `-1074 ≤ e ≤ 971`. -/
def IsF64 (f : ℚ) : Prop := ∃ m e : Int, |m| < 2 ^ 53 ∧ -1074 ≤ e ∧ e ≤ 971 ∧ f = m * 2 ^ e

/-- The exact scaled offset `(t - a) * (n - 1) / (b - a)` of the reading `t` in the
range `a .. b`. -/
def scaled (colors : List Int) (a b t : ℚ) : ℚ :=
  (t - a) * (((colors.length : Int) - 1 : Int) : ℚ) / (b - a)

/-- The scaled offset as `float64` arithmetic computes it on non-negative operands:
each of the two differences, the product and the quotient is rounded. -/
def scaledF64 (colors : List Int) (a b t : ℚ) : ℚ :=
  roundMag (roundMag (roundMag (t - a) * (((colors.length : Int) - 1 : Int) : ℚ))
    / roundMag (b - a))

/-! ## Truncation toward zero -/

theorem truncate_of_nonneg {q : ℚ} (h : 0 ≤ q) : truncate q = ⌊q⌋ := by
  unfold truncate
  rw [Rat.floor_def]
  exact Int.tdiv_eq_ediv (Rat.num_nonneg.mpr h) (Int.ofNat_nonneg _)

theorem truncate_neg (q : ℚ) : truncate (-q) = -truncate q := by
  unfold truncate
  rw [Rat.num_neg_eq_neg_num, Rat.den_neg_eq_den, Int.neg_tdiv]

theorem truncate_of_nonpos {q : ℚ} (h : q ≤ 0) : truncate q = ⌈q⌉ := by
  have h1 : truncate (-q) = ⌊-q⌋ := truncate_of_nonneg (neg_nonneg.mpr h)
  rw [truncate_neg, Int.floor_neg] at h1
  exact neg_injective h1

theorem truncate_mono {p q : ℚ} (h : p ≤ q) : truncate p ≤ truncate q := by
  rcases le_total 0 p with hp | hp
  · rw [truncate_of_nonneg hp, truncate_of_nonneg (hp.trans h)]
    exact Int.floor_mono h
  · rcases le_total 0 q with hq | hq
    · rw [truncate_of_nonpos hp, truncate_of_nonneg hq]
      have h1 : ⌈p⌉ ≤ 0 := Int.ceil_le.mpr (by simpa using hp)
      have h2 : 0 ≤ ⌊q⌋ := Int.floor_nonneg.mpr hq
      exact h1.trans h2
    · rw [truncate_of_nonpos hp, truncate_of_nonpos hq]
      exact Int.ceil_mono h

/-! ## Rounding to the nearest integer -/

theorem roundHalfEven_cases (x : ℚ) : roundHalfEven x = ⌊x⌋ ∨ roundHalfEven x = ⌊x⌋ + 1 := by
  unfold roundHalfEven
  split_ifs <;> simp

theorem roundHalfEven_sub_le (x : ℚ) : |(roundHalfEven x : ℚ) - x| ≤ 1 / 2 := by
  have h1 := Int.floor_le x
  have h2 := Int.lt_floor_add_one x
  unfold roundHalfEven
  rw [abs_le]
  split_ifs with ha hb hc
  · constructor <;> linarith
  · push_cast; constructor <;> linarith
  · have : x - ⌊x⌋ = 1 / 2 := le_antisymm (not_lt.mp hb) (not_lt.mp ha)
    constructor <;> linarith
  · have : x - ⌊x⌋ = 1 / 2 := le_antisymm (not_lt.mp hb) (not_lt.mp ha)
    push_cast; constructor <;> linarith

theorem roundHalfEven_nearest (x : ℚ) (j : Int) :
    |(roundHalfEven x : ℚ) - x| ≤ |(j : ℚ) - x| := by
  have h := roundHalfEven_sub_le x
  have h1 := Int.floor_le x
  have h2 := Int.lt_floor_add_one x
  rcases le_or_lt j ⌊x⌋ with hj | hj
  · -- j below: distance at least `x - ⌊x⌋`
    have hj' : (j : ℚ) ≤ (⌊x⌋ : ℚ) := by exact_mod_cast hj
    rcases roundHalfEven_cases x with e | e
    · rw [e, abs_of_nonpos (by linarith), abs_of_nonpos (by linarith)]
      linarith
    · have hx : x - ⌊x⌋ ≥ 1 / 2 := by
        rw [e, abs_le] at h
        push_cast at h
        linarith [h.2]
      rw [e, abs_of_nonneg (by push_cast; linarith), abs_of_nonpos (by linarith)]
      push_cast
      linarith
  · have hj' : (⌊x⌋ : ℚ) + 1 ≤ (j : ℚ) := by exact_mod_cast hj
    rcases roundHalfEven_cases x with e | e
    · have hx : x - ⌊x⌋ ≤ 1 / 2 := by
        rw [e, abs_le] at h
        linarith [h.1]
      rw [e, abs_of_nonpos (by linarith), abs_of_nonneg (by linarith)]
      linarith
    · rw [e, abs_of_nonneg (by push_cast; linarith), abs_of_nonneg (by linarith)]
      push_cast
      linarith

theorem roundHalfEven_intCast (j : Int) : roundHalfEven (j : ℚ) = j := by
  have h := roundHalfEven_nearest (j : ℚ) j
  rw [sub_self, abs_zero] at h
  have h0 : (roundHalfEven (j : ℚ) : ℚ) - j = 0 := abs_eq_zero.mp (le_antisymm h (abs_nonneg _))
  have : (roundHalfEven (j : ℚ) : ℚ) = j := by linarith
  exact_mod_cast this

theorem roundHalfEven_eq_of_abs_lt {x : ℚ} {j : Int} (h : |x - j| < 1 / 2) :
    roundHalfEven x = j := by
  have h1 := roundHalfEven_nearest x j
  have h2 : |(roundHalfEven x : ℚ) - j| < 1 := by
    have e : (roundHalfEven x : ℚ) - j = ((roundHalfEven x : ℚ) - x) + (x - j) := by ring
    rw [e]
    have h3 : |(j : ℚ) - x| = |x - j| := abs_sub_comm _ _
    calc |((roundHalfEven x : ℚ) - x) + (x - j)|
        ≤ |(roundHalfEven x : ℚ) - x| + |x - j| := abs_add _ _
      _ < 1 := by linarith
  have h4 : |roundHalfEven x - j| < 1 := by exact_mod_cast h2
  have := Int.abs_lt_one_iff.mp h4
  omega

theorem roundHalfEven_nonneg {x : ℚ} (hx : 0 ≤ x) : 0 ≤ roundHalfEven x := by
  have h0 : 0 ≤ ⌊x⌋ := Int.floor_nonneg.mpr hx
  rcases roundHalfEven_cases x with e | e <;> omega

theorem roundHalfEven_le_of_le {x : ℚ} {j : Int} (h : x ≤ j) : roundHalfEven x ≤ j := by
  by_contra hc
  have hc' : (j : ℚ) + 1 ≤ roundHalfEven x := by exact_mod_cast (not_le.mp hc)
  have h1 := roundHalfEven_nearest x j
  rw [abs_of_nonneg (by linarith), abs_of_nonneg (by linarith)] at h1
  linarith

theorem roundHalfEven_ge_of_ge {x : ℚ} {j : Int} (h : (j : ℚ) ≤ x) : j ≤ roundHalfEven x := by
  by_contra hc
  have hc' : (roundHalfEven x : ℚ) + 1 ≤ j := by exact_mod_cast (not_le.mp hc)
  have h1 := roundHalfEven_nearest x j
  rw [abs_of_nonpos (by linarith), abs_of_nonpos (by linarith)] at h1
  linarith

/-! ## The quantum of a positive rational -/

theorem two_zpow_pos (k : Int) : (0 : ℚ) < 2 ^ k := zpow_pos (by norm_num) k

theorem two_zpow_le {m n : Int} (h : m ≤ n) : (2 : ℚ) ^ m ≤ 2 ^ n :=
  zpow_le_zpow_right₀ (by norm_num) h

theorem two_zpow_add (m n : Int) : (2 : ℚ) ^ (m + n) = 2 ^ m * 2 ^ n :=
  zpow_add₀ (by norm_num) m n

theorem log_two_le {q : ℚ} (hq : 0 < q) : (2 : ℚ) ^ Int.log 2 q ≤ q := by
  have := Int.zpow_log_le_self (b := 2) (r := q) (by norm_num) hq
  simpa using this

theorem lt_log_two_succ (q : ℚ) : q < (2 : ℚ) ^ (Int.log 2 q + 1) := by
  have := Int.lt_zpow_succ_log_self (b := 2) (by norm_num) q
  simpa using this

theorem quantumExp_ge (q : ℚ) : -1074 ≤ quantumExp q := le_max_right _ _

theorem lt_quantum (q : ℚ) : q < 2 ^ (quantumExp q + 53) := by
  have h1 := lt_log_two_succ q
  have h2 : Int.log 2 q + 1 ≤ quantumExp q + 53 := by
    have : Int.log 2 q - 52 ≤ quantumExp q := le_max_left _ _
    omega
  exact lt_of_lt_of_le h1 (two_zpow_le h2)

theorem quantum_le {q : ℚ} (hq : 0 < q) :
    quantumExp q = -1074 ∨ (2 : ℚ) ^ (quantumExp q + 52) ≤ q := by
  by_cases h : Int.log 2 q - 52 ≤ -1074
  · left
    exact max_eq_right h
  · right
    have e : quantumExp q = Int.log 2 q - 52 := max_eq_left (by omega)
    rw [e]
    have : Int.log 2 q - 52 + 52 = Int.log 2 q := by omega
    rw [this]
    exact log_two_le hq

theorem quantumExp_eq {q : ℚ} {k : Int} (h1 : (2 : ℚ) ^ k ≤ q) (h2 : q < 2 ^ (k + 1)) :
    quantumExp q = max (k - 52) (-1074) := by
  have hq : 0 < q := lt_of_lt_of_le (two_zpow_pos k) h1
  have a : k ≤ Int.log 2 q := by
    have := (Int.zpow_le_iff_le_log (b := 2) (by norm_num) (x := k) hq).mp (by simpa using h1)
    exact this
  have b : Int.log 2 q < k + 1 := by
    have := (Int.lt_zpow_iff_log_lt (b := 2) (by norm_num) (x := k + 1) hq).mp
      (by simpa using h2)
    exact this
  have : Int.log 2 q = k := by omega
  unfold quantumExp
  rw [this]

/-! ## Rounding of a magnitude -/

theorem roundMag_zero : roundMag 0 = 0 := by
  unfold roundMag
  rw [zero_div, show ((0 : ℚ)) = ((0 : Int) : ℚ) by norm_num, roundHalfEven_intCast]
  simp

theorem roundMag_nonneg {q : ℚ} (hq : 0 ≤ q) : 0 ≤ roundMag q := by
  unfold roundMag
  have h1 : 0 ≤ q / 2 ^ quantumExp q := div_nonneg hq (two_zpow_pos _).le
  have h2 : (0 : ℚ) ≤ roundHalfEven (q / 2 ^ quantumExp q) := by
    exact_mod_cast roundHalfEven_nonneg h1
  exact mul_nonneg h2 (two_zpow_pos _).le

theorem roundMag_nearest_mult (q : ℚ) (j : Int) :
    |roundMag q - q| ≤ |(j : ℚ) * 2 ^ quantumExp q - q| := by
  have hg := two_zpow_pos (quantumExp q)
  have h := roundHalfEven_nearest (q / 2 ^ quantumExp q) j
  have e1 : roundMag q - q =
      ((roundHalfEven (q / 2 ^ quantumExp q) : ℚ) - q / 2 ^ quantumExp q)
        * 2 ^ quantumExp q := by
    unfold roundMag
    field_simp
  have e2 : (j : ℚ) * 2 ^ quantumExp q - q =
      ((j : ℚ) - q / 2 ^ quantumExp q) * 2 ^ quantumExp q := by
    field_simp
  rw [e1, e2, abs_mul, abs_mul, abs_of_pos hg]
  exact mul_le_mul_of_nonneg_right h hg.le

theorem roundMag_sub_le (q : ℚ) : |roundMag q - q| ≤ 2 ^ (quantumExp q - 1) := by
  have hg := two_zpow_pos (quantumExp q)
  have h := roundHalfEven_sub_le (q / 2 ^ quantumExp q)
  have e1 : roundMag q - q =
      ((roundHalfEven (q / 2 ^ quantumExp q) : ℚ) - q / 2 ^ quantumExp q)
        * 2 ^ quantumExp q := by
    unfold roundMag
    field_simp
  have e2 : (2 : ℚ) ^ (quantumExp q - 1) = 1 / 2 * 2 ^ quantumExp q := by
    rw [sub_eq_add_neg, two_zpow_add]
    norm_num
    ring
  rw [e1, e2, abs_mul, abs_of_pos hg]
  exact mul_le_mul_of_nonneg_right h hg.le

theorem roundMag_nearest_grid {q : ℚ} (hq : 0 < q) {f : ℚ} (hf : InGrid f) :
    |roundMag q - q| ≤ |f - q| := by
  obtain ⟨m, e, hm, he, rfl⟩ := hf
  by_cases hge : quantumExp q ≤ e
  · -- `f` is a multiple of the quantum
    obtain ⟨d, hd⟩ := Int.eq_ofNat_of_zero_le (sub_nonneg.mpr hge)
    have e1 : (m : ℚ) * 2 ^ e = ((m * 2 ^ d : Int) : ℚ) * 2 ^ quantumExp q := by
      have : e = (d : Int) + quantumExp q := by omega
      rw [this, two_zpow_add, zpow_natCast]
      push_cast
      ring
    rw [e1]
    exact roundMag_nearest_mult q _
  · -- `f` lies below the binade of `q`
    have hlt : e + 1 ≤ quantumExp q := by omega
    have hg : (2 : ℚ) ^ (quantumExp q + 52) ≤ q := by
      rcases quantum_le hq with h | h
      · omega
      · exact h
    have hm' : |(m : ℚ)| ≤ 2 ^ 53 := by exact_mod_cast hm
    have hf1 : (m : ℚ) * 2 ^ e ≤ 2 ^ (quantumExp q + 52) := by
      have h1 : (m : ℚ) * 2 ^ e ≤ 2 ^ 53 * 2 ^ e :=
        mul_le_mul_of_nonneg_right ((le_abs_self _).trans hm') (two_zpow_pos e).le
      have h2 : (2 : ℚ) ^ 53 * 2 ^ e = 2 ^ ((53 : Int) + e) := by
        rw [two_zpow_add]
        norm_num
      have h3 : (2 : ℚ) ^ ((53 : Int) + e) ≤ 2 ^ (quantumExp q + 52) :=
        two_zpow_le (by omega)
      linarith
    have h52 := roundMag_nearest_mult q (2 ^ 52)
    have e52 : ((2 ^ 52 : Int) : ℚ) * 2 ^ quantumExp q = 2 ^ (quantumExp q + 52) := by
      rw [two_zpow_add]
      norm_num
      ring
    rw [e52, abs_of_nonpos (sub_nonpos.mpr hg)] at h52
    rw [abs_of_nonpos (by linarith : (m : ℚ) * 2 ^ e - q ≤ 0)]
    linarith

theorem roundMag_inGrid {q : ℚ} (hq : 0 ≤ q) : InGrid (roundMag q) := by
  refine ⟨roundHalfEven (q / 2 ^ quantumExp q), quantumExp q, ?_, quantumExp_ge q, rfl⟩
  have hg := two_zpow_pos (quantumExp q)
  have h0 : 0 ≤ roundHalfEven (q / 2 ^ quantumExp q) :=
    roundHalfEven_nonneg (div_nonneg hq hg.le)
  rw [abs_of_nonneg h0]
  apply roundHalfEven_le_of_le
  rw [div_le_iff₀ hg]
  have := lt_quantum q
  rw [two_zpow_add] at this
  push_cast
  have e : (2 : ℚ) ^ (53 : Int) = 2 ^ 53 := by norm_num
  rw [e] at this
  linarith

theorem roundMag_grid {f : ℚ} (h0 : 0 ≤ f) (hf : InGrid f) : roundMag f = f := by
  rcases eq_or_lt_of_le h0 with h | h
  · rw [← h, roundMag_zero]
  · have := roundMag_nearest_grid h hf
    rw [sub_self, abs_zero] at this
    have h1 := abs_eq_zero.mp (le_antisymm this (abs_nonneg _))
    linarith

theorem roundMag_mono {p q : ℚ} (hp : 0 ≤ p) (h : p ≤ q) : roundMag p ≤ roundMag q := by
  rcases eq_or_lt_of_le hp with h0 | h0
  · rw [← h0, roundMag_zero]
    exact roundMag_nonneg (hp.trans h)
  · have hq : 0 < q := lt_of_lt_of_le h0 h
    by_contra hc
    have hc' : roundMag q < roundMag p := not_le.mp hc
    have h1 := roundMag_nearest_grid h0 (roundMag_inGrid hq.le)
    have h2 := roundMag_nearest_grid hq (roundMag_inGrid h0.le)
    -- `p` is at least as close to `roundMag p` as to `roundMag q`, and conversely
    have a1 : roundMag p + roundMag q ≤ 2 * p := by
      rcases le_or_lt (roundMag q) p with hqp | hqp
      · rw [abs_of_nonpos (by linarith : roundMag q - p ≤ 0)] at h1
        have := neg_abs_le (roundMag p - p)
        have := le_abs_self (roundMag p - p)
        linarith
      · rw [abs_of_pos (by linarith : 0 < roundMag q - p),
          abs_of_pos (by linarith : 0 < roundMag p - p)] at h1
        linarith
    have a2 : 2 * q ≤ roundMag p + roundMag q := by
      rcases le_or_lt q (roundMag p) with hqp | hqp
      · rw [abs_of_nonneg (by linarith : 0 ≤ roundMag p - q)] at h2
        have := neg_abs_le (roundMag q - q)
        have := le_abs_self (roundMag q - q)
        linarith
      · rw [abs_of_neg (by linarith : roundMag p - q < 0),
          abs_of_neg (by linarith : roundMag q - q < 0)] at h2
        linarith
    have hpq : p = q := by linarith
    rw [hpq] at hc'
    exact lt_irrefl _ hc'

/-! ## Error of the rounding -/

/-- Multiples of the least positive `float64`, `2^-1074`. -/
theorem InGrid.multiple {f : ℚ} (hf : InGrid f) : ∃ j : Int, f = j * 2 ^ (-1074 : Int) := by
  obtain ⟨m, e, _, he, rfl⟩ := hf
  obtain ⟨d, hd⟩ := Int.eq_ofNat_of_zero_le (by omega : 0 ≤ e + 1074)
  refine ⟨m * 2 ^ d, ?_⟩
  have : e = (d : Int) + (-1074) := by omega
  rw [this, two_zpow_add, zpow_natCast]
  push_cast
  ring

theorem IsF64.inGrid {f : ℚ} (hf : IsF64 f) : InGrid f := by
  obtain ⟨m, e, hm, he, _, rfl⟩ := hf
  exact ⟨m, e, hm.le, he, rfl⟩

theorem IsF64.neg {f : ℚ} (hf : IsF64 f) : IsF64 (-f) := by
  obtain ⟨m, e, hm, he, he', rfl⟩ := hf
  exact ⟨-m, e, by rwa [abs_neg], he, he', by push_cast; ring⟩

theorem IsF64.abs_lt {f : ℚ} (hf : IsF64 f) : |f| < 2 ^ 1024 := by
  obtain ⟨m, e, hm, _, he, rfl⟩ := hf
  have hm' : |(m : ℚ)| < 2 ^ 53 := by exact_mod_cast hm
  rw [abs_mul, abs_of_pos (two_zpow_pos e)]
  have h1 : (2 : ℚ) ^ e ≤ 2 ^ (971 : Int) := two_zpow_le he
  have h2 : (2 : ℚ) ^ (971 : Int) = 2 ^ 971 := by norm_num
  rw [h2] at h1
  calc |(m : ℚ)| * 2 ^ e ≤ |(m : ℚ)| * 2 ^ 971 :=
        mul_le_mul_of_nonneg_left h1 (abs_nonneg _)
    _ < 2 ^ 53 * 2 ^ 971 := mul_lt_mul_of_pos_right hm' (by positivity)
    _ = 2 ^ 1024 := by norm_num

theorem IsF64.intCast {n : Int} (hn : |n| < 2 ^ 53) : IsF64 (n : ℚ) :=
  ⟨n, 0, hn, by omega, by omega, by simp⟩

theorem roundMag_err_multiple {q : ℚ} (hq : 0 ≤ q) (hm : ∃ j : Int, q = j * 2 ^ (-1074 : Int)) :
    |roundMag q - q| ≤ q / 2 ^ 53 := by
  rcases eq_or_lt_of_le hq with h0 | h0
  · rw [← h0, roundMag_zero]
    simp
  · rcases quantum_le h0 with hg | hg
    · obtain ⟨j, hj⟩ := hm
      have := roundMag_nearest_mult q j
      rw [hg, ← hj, sub_self, abs_zero] at this
      exact this.trans (by positivity)
    · have h1 := roundMag_sub_le q
      have e : (2 : ℚ) ^ (quantumExp q - 1) = 2 ^ (quantumExp q + 52) / 2 ^ 53 := by
        have : quantumExp q - 1 = (quantumExp q + 52) + (-53) := by omega
        rw [this, two_zpow_add]
        norm_num
        ring
      rw [e] at h1
      exact h1.trans (div_le_div_of_nonneg_right hg (by positivity))

theorem roundMag_err {q : ℚ} (hq : 0 ≤ q) :
    |roundMag q - q| ≤ q / 2 ^ 53 + 2 ^ (-1075 : Int) := by
  rcases eq_or_lt_of_le hq with h0 | h0
  · rw [← h0, roundMag_zero]
    simp
    positivity
  · have h1 := roundMag_sub_le q
    rcases quantum_le h0 with hg | hg
    · rw [hg] at h1
      have : (-1074 : Int) - 1 = -1075 := by norm_num
      rw [this] at h1
      have h3 : 0 ≤ q / 2 ^ 53 := by positivity
      exact h1.trans (le_add_of_nonneg_left h3)
    · have e : (2 : ℚ) ^ (quantumExp q - 1) = 2 ^ (quantumExp q + 52) / 2 ^ 53 := by
        have : quantumExp q - 1 = (quantumExp q + 52) + (-53) := by omega
        rw [this, two_zpow_add]
        norm_num
        ring
      rw [e] at h1
      have h2 : (2 : ℚ) ^ (quantumExp q + 52) / 2 ^ 53 ≤ q / 2 ^ 53 :=
        div_le_div_of_nonneg_right hg (by positivity)
      have h3 : (0 : ℚ) < 2 ^ (-1075 : Int) := two_zpow_pos _
      exact (h1.trans h2).trans (le_add_of_nonneg_right h3.le)

/-! ## Rounding to `float64` -/

theorem roundF64_of_nonneg {q : ℚ} (hq : 0 ≤ q) (hfin : roundMag q < 2 ^ 1024) :
    roundF64 q = .fin (roundMag q) := by
  unfold roundF64
  rw [if_neg (not_lt.mpr hq), if_neg (not_le.mpr hfin)]

theorem roundF64_isF64 {f : ℚ} (hf : IsF64 f) : roundF64 f = .fin f := by
  have hlt := hf.abs_lt
  rcases lt_or_le f 0 with h | h
  · have hr : roundMag (-f) = -f := roundMag_grid (by linarith) hf.neg.inGrid
    have h1 : -f < 2 ^ 1024 := (neg_le_abs f).trans_lt hlt
    unfold roundF64
    rw [if_pos h, hr, if_neg (not_le.mpr h1), if_neg (by linarith : ¬ -f = 0), neg_neg]
  · have hr : roundMag f = f := roundMag_grid h hf.inGrid
    rw [roundF64_of_nonneg h (by rw [hr]; exact (le_abs_self f).trans_lt hlt), hr]

/-! ## `getColorIndex` on finite operands -/

theorem float64ToInt_fin (q : ℚ) :
    float64ToInt (.fin q) =
      if minInt ≤ truncate q ∧ truncate q ≤ maxInt then some (truncate q) else none := rfl

theorem mul_fin_nonneg {x y : ℚ} (hx : 0 ≤ x) (hy : 0 ≤ y) (hfin : roundMag (x * y) < 2 ^ 1024) :
    F64.mul (.fin x) (.fin y) = .fin (roundMag (x * y)) := by
  simp only [F64.mul, F64.toRat?, F64.signBit]
  by_cases h : x * y = 0
  · rw [if_pos h, h, roundMag_zero]
    simp [signedZero, not_lt.mpr hx, not_lt.mpr hy]
  · rw [if_neg h]
    exact roundF64_of_nonneg (mul_nonneg hx hy) hfin

theorem div_fin_nonneg {x y : ℚ} (hx : 0 ≤ x) (hy : 0 < y) (hfin : roundMag (x / y) < 2 ^ 1024) :
    F64.div (.fin x) (.fin y) = .fin (roundMag (x / y)) := by
  simp only [F64.div, F64.toRat?, F64.signBit]
  rw [if_neg (ne_of_gt hy)]
  by_cases h : x = 0
  · rw [if_pos h, h, zero_div, roundMag_zero]
    simp [signedZero, not_lt.mpr hy.le]
  · rw [if_neg h]
    exact roundF64_of_nonneg (div_nonneg hx hy.le) hfin

theorem sub_fin_nonneg {x y : ℚ} (h : y ≤ x) (hfin : roundMag (x - y) < 2 ^ 1024) :
    F64.sub (.fin x) (.fin y) = .fin (roundMag (x - y)) := by
  simp only [F64.sub]
  exact roundF64_of_nonneg (sub_nonneg.mpr h) hfin

theorem getColorIndex_fin {colors : List Int} {a b t : ℚ}
    (hn : 1 ≤ colors.length) (hlen : colors.length ≤ 2 ^ 53) (hab : a ≤ b) (hat : a ≤ t)
    (hA : roundMag (t - a) < 2 ^ 1024)
    (hD0 : 0 < roundMag (b - a)) (hD : roundMag (b - a) < 2 ^ 1024)
    (hP : roundMag (roundMag (t - a) * (((colors.length : Int) - 1 : Int) : ℚ)) < 2 ^ 1024)
    (hQ : scaledF64 colors a b t < 2 ^ 1024) :
    getColorIndex colors (.fin a) (.fin b) (.fin t) =
      float64ToInt (.fin (scaledF64 colors a b t)) := by
  have hM : (0 : ℚ) ≤ (((colors.length : Int) - 1 : Int) : ℚ) := by
    have : (0 : Int) ≤ (colors.length : Int) - 1 := by omega
    exact_mod_cast this
  have hMf : intToFloat64 ((colors.length : Int) - 1)
      = .fin (((colors.length : Int) - 1 : Int) : ℚ) := by
    apply roundF64_isF64
    apply IsF64.intCast
    rw [abs_of_nonneg (by omega)]
    have : (colors.length : Int) ≤ 2 ^ 53 := by exact_mod_cast hlen
    omega
  have hlt : F64.lt (.fin t) (.fin a) = false := by
    simp only [F64.lt, decide_eq_false_iff_not, not_lt]
    exact hat
  unfold getColorIndex
  rw [hlt, hMf, sub_fin_nonneg hat hA, sub_fin_nonneg hab hD,
    mul_fin_nonneg (roundMag_nonneg (sub_nonneg.mpr hat)) hM hP,
    div_fin_nonneg (roundMag_nonneg (mul_nonneg (roundMag_nonneg (sub_nonneg.mpr hat)) hM))
      hD0 hQ]
  rfl

/-! ## Readings inside the range -/

theorem multiple_sub {x y : ℚ} (hx : ∃ j : Int, x = j * 2 ^ (-1074 : Int))
    (hy : ∃ j : Int, y = j * 2 ^ (-1074 : Int)) : ∃ j : Int, x - y = j * 2 ^ (-1074 : Int) := by
  obtain ⟨i, rfl⟩ := hx
  obtain ⟨j, rfl⟩ := hy
  exact ⟨i - j, by push_cast; ring⟩

theorem multiple_mul_int {x : ℚ} (hx : ∃ j : Int, x = j * 2 ^ (-1074 : Int)) (n : Int) :
    ∃ j : Int, x * (n : ℚ) = j * 2 ^ (-1074 : Int) := by
  obtain ⟨i, rfl⟩ := hx
  exact ⟨i * n, by push_cast; ring⟩

theorem roundMag_le_of_multiple {q : ℚ} (hq : 0 ≤ q)
    (hm : ∃ j : Int, q = j * 2 ^ (-1074 : Int)) : roundMag q ≤ q + q / 2 ^ 53 := by
  have := (abs_le.mp (roundMag_err_multiple hq hm)).2
  linarith

theorem roundMag_ge_of_multiple {q : ℚ} (hq : 0 ≤ q)
    (hm : ∃ j : Int, q = j * 2 ^ (-1074 : Int)) : q - q / 2 ^ 53 ≤ roundMag q := by
  have := (abs_le.mp (roundMag_err_multiple hq hm)).1
  linarith

theorem roundMag_pos_of_multiple {q : ℚ} (hq : 0 < q)
    (hm : ∃ j : Int, q = j * 2 ^ (-1074 : Int)) : 0 < roundMag q := by
  have h := roundMag_ge_of_multiple hq.le hm
  have : q / 2 ^ 53 < q := div_lt_self hq (by norm_num)
  linarith

/-- Inside the range the rounded scaled offset is at most `n - 1 + 1/2`, and no
intermediate result overflows. -/
theorem scaledF64_le {colors : List Int} {a b t : ℚ}
    (ha : IsF64 a) (hb : IsF64 b) (hn : 1 ≤ colors.length) (hlen : colors.length ≤ 2 ^ 52)
    (hr : a < b) (hlo : a ≤ t) (hhi : t ≤ b)
    (hfin : (b - a) * (colors.length : ℚ) < 2 ^ 1023) :
    roundMag (t - a) < 2 ^ 1024 ∧ 0 < roundMag (b - a) ∧ roundMag (b - a) < 2 ^ 1024 ∧
      roundMag (roundMag (t - a) * (((colors.length : Int) - 1 : Int) : ℚ)) < 2 ^ 1024 ∧
      scaledF64 colors a b t ≤ (((colors.length : Int) - 1 : Int) : ℚ) + 1 / 2 := by
  set M : ℚ := (((colors.length : Int) - 1 : Int) : ℚ) with hMdef
  have hM0 : 0 ≤ M := by
    have : (0 : Int) ≤ (colors.length : Int) - 1 := by omega
    rw [hMdef]
    exact_mod_cast this
  have hMlen : M + 1 = (colors.length : ℚ) := by
    rw [hMdef]; push_cast; ring
  have hM52 : M ≤ 2 ^ 52 - 1 := by
    have : (colors.length : ℚ) ≤ 2 ^ 52 := by exact_mod_cast hlen
    linarith
  have hD : 0 < b - a := sub_pos.mpr hr
  have hDm : ∃ j : Int, b - a = j * 2 ^ (-1074 : Int) :=
    multiple_sub hb.inGrid.multiple ha.inGrid.multiple
  have hD0 : 0 < roundMag (b - a) := roundMag_pos_of_multiple hD hDm
  have hDle : roundMag (b - a) ≤ (b - a) + (b - a) / 2 ^ 53 :=
    roundMag_le_of_multiple hD.le hDm
  have hDlen : b - a ≤ (b - a) * (colors.length : ℚ) := by
    have : (1 : ℚ) ≤ (colors.length : ℚ) := by exact_mod_cast hn
    nlinarith
  have hD1023 : b - a < 2 ^ 1023 := lt_of_le_of_lt hDlen hfin
  have hDfin : roundMag (b - a) < 2 ^ 1024 := by
    have : (b - a) / 2 ^ 53 ≤ b - a := div_le_self hD.le (by norm_num)
    have e : (2 : ℚ) ^ 1024 = 2 * 2 ^ 1023 := by norm_num
    linarith
  have hAD : roundMag (t - a) ≤ roundMag (b - a) :=
    roundMag_mono (sub_nonneg.mpr hlo) (by linarith)
  have hA0 : 0 ≤ roundMag (t - a) := roundMag_nonneg (sub_nonneg.mpr hlo)
  -- the product
  have hDMm : ∃ j : Int, roundMag (b - a) * M = j * 2 ^ (-1074 : Int) :=
    multiple_mul_int (roundMag_inGrid hD.le).multiple _
  have hDM0 : 0 ≤ roundMag (b - a) * M := mul_nonneg hD0.le hM0
  have hPle : roundMag (roundMag (t - a) * M) ≤ roundMag (roundMag (b - a) * M) :=
    roundMag_mono (mul_nonneg hA0 hM0) (mul_le_mul_of_nonneg_right hAD hM0)
  have hDMle : roundMag (roundMag (b - a) * M)
      ≤ roundMag (b - a) * M + roundMag (b - a) * M / 2 ^ 53 :=
    roundMag_le_of_multiple hDM0 hDMm
  have hP0 : 0 ≤ roundMag (roundMag (t - a) * M) := roundMag_nonneg (mul_nonneg hA0 hM0)
  have hPfin : roundMag (roundMag (t - a) * M) < 2 ^ 1024 := by
    have h1 : roundMag (b - a) * M ≤ ((b - a) + (b - a) / 2 ^ 53) * M :=
      mul_le_mul_of_nonneg_right hDle hM0
    have h2 : (b - a) * M ≤ (b - a) * (colors.length : ℚ) := by
      rw [← hMlen]; nlinarith
    have h3 : ((b - a) + (b - a) / 2 ^ 53) * M = (b - a) * M * (1 + 1 / 2 ^ 53) := by ring
    have h4 : (b - a) * M * (1 + 1 / 2 ^ 53) ≤ 2 ^ 1023 * (1 + 1 / 2 ^ 53) :=
      mul_le_mul_of_nonneg_right (by linarith) (by norm_num)
    have h5 : roundMag (b - a) * M / 2 ^ 53 =  roundMag (b - a) * M * (1 / 2 ^ 53) := by ring
    have h6 : roundMag (b - a) * M * (1 / 2 ^ 53)
        ≤ 2 ^ 1023 * (1 + 1 / 2 ^ 53) * (1 / 2 ^ 53) :=
      mul_le_mul_of_nonneg_right (by linarith) (by norm_num)
    have h7 : (2 : ℚ) ^ 1023 * (1 + 1 / 2 ^ 53) + 2 ^ 1023 * (1 + 1 / 2 ^ 53) * (1 / 2 ^ 53)
        < 2 ^ 1024 := by norm_num
    linarith
  -- the quotient
  have hQle : roundMag (roundMag (t - a) * M) / roundMag (b - a) ≤ M + 1 / 2 := by
    rw [div_le_iff₀ hD0]
    have h1 : roundMag (b - a) * M / 2 ^ 53 ≤ roundMag (b - a) * (1 / 2) := by
      have : M / 2 ^ 53 ≤ 1 / 2 := by
        rw [div_le_iff₀ (by norm_num)]
        have : (1 : ℚ) / 2 * 2 ^ 53 = 2 ^ 52 := by norm_num
        linarith
      have := mul_le_mul_of_nonneg_left this hD0.le
      calc roundMag (b - a) * M / 2 ^ 53 = roundMag (b - a) * (M / 2 ^ 53) := by ring
        _ ≤ roundMag (b - a) * (1 / 2) := this
    have : (M + 1 / 2) * roundMag (b - a)
        = roundMag (b - a) * M + roundMag (b - a) * (1 / 2) := by ring
    linarith
  have hhalf : InGrid (M + 1 / 2) := by
    refine ⟨2 * ((colors.length : Int) - 1) + 1, -1, ?_, by norm_num, ?_⟩
    · have : (colors.length : Int) ≤ 2 ^ 52 := by exact_mod_cast hlen
      rw [abs_of_nonneg (by omega)]
      omega
    · rw [hMdef]
      push_cast
      norm_num
      ring
  have hQ : scaledF64 colors a b t ≤ M + 1 / 2 := by
    have := roundMag_mono (div_nonneg hP0 hD0.le) hQle
    rw [roundMag_grid (by linarith) hhalf] at this
    exact this
  exact ⟨lt_of_le_of_lt hAD hDfin, hD0, hDfin, hPfin, hQ⟩

/-! ## Distance between the rounded and the exact scaled offset -/

theorem scaledF64_near {colors : List Int} {a b t : ℚ}
    (ha : IsF64 a) (hb : IsF64 b) (ht : IsF64 t)
    (hn : 1 ≤ colors.length) (hlen : colors.length ≤ 2 ^ 52)
    (hr : a < b) (hlo : a ≤ t)
    (hQ : scaled colors a b t ≤ 2 ^ 50)
    (hfinA : (t - a) * (colors.length : ℚ) < 2 ^ 1023) (hfinD : b - a < 2 ^ 1023) :
    roundMag (t - a) < 2 ^ 1024 ∧ 0 < roundMag (b - a) ∧ roundMag (b - a) < 2 ^ 1024 ∧
      roundMag (roundMag (t - a) * (((colors.length : Int) - 1 : Int) : ℚ)) < 2 ^ 1024 ∧
      scaled colors a b t - 1 < scaledF64 colors a b t ∧
      scaledF64 colors a b t < scaled colors a b t + 1 := by
  set M : ℚ := (((colors.length : Int) - 1 : Int) : ℚ) with hMdef
  have hM0 : 0 ≤ M := by
    have : (0 : Int) ≤ (colors.length : Int) - 1 := by omega
    rw [hMdef]
    exact_mod_cast this
  have hMlen : M + 1 = (colors.length : ℚ) := by
    rw [hMdef]; push_cast; ring
  have hu0 : (0 : ℚ) ≤ 1 - 1 / 2 ^ 53 := by norm_num
  have hu1 : (0 : ℚ) ≤ 1 + 1 / 2 ^ 53 := by norm_num
  -- the two differences
  have hA : 0 ≤ t - a := sub_nonneg.mpr hlo
  have hD : 0 < b - a := sub_pos.mpr hr
  have hAm : ∃ j : Int, t - a = j * 2 ^ (-1074 : Int) :=
    multiple_sub ht.inGrid.multiple ha.inGrid.multiple
  have hDm : ∃ j : Int, b - a = j * 2 ^ (-1074 : Int) :=
    multiple_sub hb.inGrid.multiple ha.inGrid.multiple
  have hA0 : 0 ≤ roundMag (t - a) := roundMag_nonneg hA
  have hAhi : roundMag (t - a) ≤ (t - a) * (1 + 1 / 2 ^ 53) := by
    have := roundMag_le_of_multiple hA hAm
    linarith
  have hAlo : (t - a) * (1 - 1 / 2 ^ 53) ≤ roundMag (t - a) := by
    have := roundMag_ge_of_multiple hA hAm
    linarith
  have hD0 : 0 < roundMag (b - a) := roundMag_pos_of_multiple hD hDm
  have hDhi : roundMag (b - a) ≤ (b - a) * (1 + 1 / 2 ^ 53) := by
    have := roundMag_le_of_multiple hD.le hDm
    linarith
  have hDlo : (b - a) * (1 - 1 / 2 ^ 53) ≤ roundMag (b - a) := by
    have := roundMag_ge_of_multiple hD.le hDm
    linarith
  have hAfin0 : t - a < 2 ^ 1023 := by
    have : (1 : ℚ) ≤ (colors.length : ℚ) := by exact_mod_cast hn
    have : t - a ≤ (t - a) * (colors.length : ℚ) := by nlinarith
    linarith
  have hAfin : roundMag (t - a) < 2 ^ 1024 := by
    have : (t - a) * (1 + 1 / 2 ^ 53) ≤ (t - a) * 2 :=
      mul_le_mul_of_nonneg_left (by norm_num) hA
    have e : (2 : ℚ) ^ 1024 = 2 ^ 1023 * 2 := by norm_num
    linarith
  have hDfin : roundMag (b - a) < 2 ^ 1024 := by
    have : (b - a) * (1 + 1 / 2 ^ 53) ≤ (b - a) * 2 :=
      mul_le_mul_of_nonneg_left (by norm_num) hD.le
    have e : (2 : ℚ) ^ 1024 = 2 ^ 1023 * 2 := by norm_num
    linarith
  -- the product
  have hX0 : 0 ≤ roundMag (t - a) * M := mul_nonneg hA0 hM0
  have hXm : ∃ j : Int, roundMag (t - a) * M = j * 2 ^ (-1074 : Int) :=
    multiple_mul_int (roundMag_inGrid hA).multiple _
  have hXhi : roundMag (t - a) * M ≤ (t - a) * M * (1 + 1 / 2 ^ 53) := by
    have := mul_le_mul_of_nonneg_right hAhi hM0
    linarith
  have hXlo : (t - a) * M * (1 - 1 / 2 ^ 53) ≤ roundMag (t - a) * M := by
    have := mul_le_mul_of_nonneg_right hAlo hM0
    linarith
  have hP0 : 0 ≤ roundMag (roundMag (t - a) * M) := roundMag_nonneg hX0
  have hPhi : roundMag (roundMag (t - a) * M)
      ≤ (t - a) * M * ((1 + 1 / 2 ^ 53) * (1 + 1 / 2 ^ 53)) := by
    have h1 := roundMag_le_of_multiple hX0 hXm
    have h2 := mul_le_mul_of_nonneg_right hXhi hu1
    linarith
  have hPlo : (t - a) * M * ((1 - 1 / 2 ^ 53) * (1 - 1 / 2 ^ 53))
      ≤ roundMag (roundMag (t - a) * M) := by
    have h1 := roundMag_ge_of_multiple hX0 hXm
    have h2 := mul_le_mul_of_nonneg_right hXlo hu0
    linarith
  have hAM0 : 0 ≤ (t - a) * M := mul_nonneg hA hM0
  have hPfin : roundMag (roundMag (t - a) * M) < 2 ^ 1024 := by
    have h1 : (t - a) * M ≤ (t - a) * (colors.length : ℚ) := by
      rw [← hMlen]; nlinarith
    have h2 : (t - a) * M * ((1 + 1 / 2 ^ 53) * (1 + 1 / 2 ^ 53)) ≤ (t - a) * M * 2 :=
      mul_le_mul_of_nonneg_left (by norm_num) hAM0
    have e : (2 : ℚ) ^ 1024 = 2 ^ 1023 * 2 := by norm_num
    linarith
  -- the quotient
  have hQD : (t - a) * M = scaled colors a b t * (b - a) := by
    have e : scaled colors a b t = (t - a) * M / (b - a) := rfl
    rw [e]
    field_simp
  have hQ0 : 0 ≤ scaled colors a b t := by
    have e : scaled colors a b t = (t - a) * M / (b - a) := rfl
    rw [e]
    exact div_nonneg hAM0 hD.le
  have hY0 : 0 ≤ roundMag (roundMag (t - a) * M) / roundMag (b - a) := div_nonneg hP0 hD0.le
  have hYhi : roundMag (roundMag (t - a) * M) / roundMag (b - a)
      ≤ scaled colors a b t * ((1 + 1 / 2 ^ 53) * (1 + 1 / 2 ^ 53) / (1 - 1 / 2 ^ 53)) := by
    rw [div_le_iff₀ hD0]
    have h1 : scaled colors a b t * ((1 + 1 / 2 ^ 53) * (1 + 1 / 2 ^ 53) / (1 - 1 / 2 ^ 53))
          * ((b - a) * (1 - 1 / 2 ^ 53))
        = (t - a) * M * ((1 + 1 / 2 ^ 53) * (1 + 1 / 2 ^ 53)) := by
      rw [hQD]
      field_simp
      ring
    have h2 : scaled colors a b t * ((1 + 1 / 2 ^ 53) * (1 + 1 / 2 ^ 53) / (1 - 1 / 2 ^ 53))
          * ((b - a) * (1 - 1 / 2 ^ 53))
        ≤ scaled colors a b t * ((1 + 1 / 2 ^ 53) * (1 + 1 / 2 ^ 53) / (1 - 1 / 2 ^ 53))
          * roundMag (b - a) :=
      mul_le_mul_of_nonneg_left hDlo (mul_nonneg hQ0 (by norm_num))
    linarith
  have hYlo : scaled colors a b t * ((1 - 1 / 2 ^ 53) * (1 - 1 / 2 ^ 53) / (1 + 1 / 2 ^ 53))
      ≤ roundMag (roundMag (t - a) * M) / roundMag (b - a) := by
    rw [le_div_iff₀ hD0]
    have h1 : scaled colors a b t * ((1 - 1 / 2 ^ 53) * (1 - 1 / 2 ^ 53) / (1 + 1 / 2 ^ 53))
          * ((b - a) * (1 + 1 / 2 ^ 53))
        = (t - a) * M * ((1 - 1 / 2 ^ 53) * (1 - 1 / 2 ^ 53)) := by
      rw [hQD]
      field_simp
      ring
    have h2 : scaled colors a b t * ((1 - 1 / 2 ^ 53) * (1 - 1 / 2 ^ 53) / (1 + 1 / 2 ^ 53))
          * roundMag (b - a)
        ≤ scaled colors a b t * ((1 - 1 / 2 ^ 53) * (1 - 1 / 2 ^ 53) / (1 + 1 / 2 ^ 53))
          * ((b - a) * (1 + 1 / 2 ^ 53)) :=
      mul_le_mul_of_nonneg_left hDhi (mul_nonneg hQ0 (by norm_num))
    linarith
  have herr := abs_le.mp (roundMag_err hY0)
  have hη : (2 : ℚ) ^ (-1075 : Int) < 1 / 8 := by norm_num
  have hk1 : (1 + 1 / 2 ^ 53) * (1 + 1 / 2 ^ 53) / (1 - 1 / 2 ^ 53) * (1 + 1 / 2 ^ 53)
      ≤ (1 : ℚ) + 5 / 2 ^ 53 := by norm_num
  have hk2 : (1 : ℚ) - 5 / 2 ^ 53
      ≤ (1 - 1 / 2 ^ 53) * (1 - 1 / 2 ^ 53) / (1 + 1 / 2 ^ 53) * (1 - 1 / 2 ^ 53) := by
    norm_num
  have h5 : scaled colors a b t * (5 / 2 ^ 53) ≤ 5 / 8 := by
    have := mul_le_mul_of_nonneg_right hQ (by norm_num : (0 : ℚ) ≤ 5 / 2 ^ 53)
    have e : (2 : ℚ) ^ 50 * (5 / 2 ^ 53) = 5 / 8 := by norm_num
    linarith
  refine ⟨hAfin, hD0, hDfin, hPfin, ?_, ?_⟩
  · -- lower bound
    have h1 := mul_le_mul_of_nonneg_right hYlo hu0
    have h2 := mul_le_mul_of_nonneg_left hk2 hQ0
    have h3 : roundMag (roundMag (t - a) * M) / roundMag (b - a) * (1 - 1 / 2 ^ 53)
        = roundMag (roundMag (t - a) * M) / roundMag (b - a)
          - roundMag (roundMag (t - a) * M) / roundMag (b - a) / 2 ^ 53 := by ring
    have h4 := herr.1
    have key : scaled colors a b t - 1
        < roundMag (roundMag (roundMag (t - a) * M) / roundMag (b - a)) := by
      linarith only [h1, h2, h3, h4, h5, hη]
    exact key
  · have h1 := mul_le_mul_of_nonneg_right hYhi hu1
    have h2 := mul_le_mul_of_nonneg_left hk1 hQ0
    have h3 : roundMag (roundMag (t - a) * M) / roundMag (b - a) * (1 + 1 / 2 ^ 53)
        = roundMag (roundMag (t - a) * M) / roundMag (b - a)
          + roundMag (roundMag (t - a) * M) / roundMag (b - a) / 2 ^ 53 := by ring
    have h4 := herr.2
    have key : roundMag (roundMag (roundMag (t - a) * M) / roundMag (b - a))
        < scaled colors a b t + 1 := by
      linarith only [h1, h2, h3, h4, h5, hη]
    exact key

/-! ## Evaluation at concrete operands -/

theorem isF64_of_eq {f : ℚ} (m e : Int) (h : f = m * 2 ^ e) (h1 : -(2 ^ 53) < m)
    (h2 : m < 2 ^ 53) (he1 : -1074 ≤ e) (he2 : e ≤ 971) : IsF64 f :=
  ⟨m, e, abs_lt.mpr ⟨h1, h2⟩, he1, he2, h⟩

theorem roundMag_isF64 {f : ℚ} (h0 : 0 ≤ f) (hf : IsF64 f) : roundMag f = f :=
  roundMag_grid h0 hf.inGrid

theorem roundMag_eq_of_bounds {q : ℚ} (k g m : Int) (h1 : (2 : ℚ) ^ k ≤ q)
    (h2 : q < 2 ^ (k + 1)) (hg : g = max (k - 52) (-1074))
    (hm : |q / 2 ^ g - m| < 1 / 2) : roundMag q = m * 2 ^ g := by
  unfold roundMag
  rw [quantumExp_eq h1 h2, ← hg, roundHalfEven_eq_of_abs_lt hm]

theorem roundF64_overflow {q : ℚ} (hq : 0 ≤ q) (h : 2 ^ 1024 ≤ roundMag q) :
    roundF64 q = .posInf := by
  unfold roundF64
  rw [if_neg (not_lt.mpr hq), if_pos h]

theorem roundMag_eq_exact {q f : ℚ} (m e : Int) (hq : q = f) (hf : f = m * 2 ^ e)
    (h0 : 0 ≤ m) (h2 : m ≤ 2 ^ 53) (he : -1074 ≤ e) : roundMag q = f := by
  rw [hq]
  refine roundMag_grid ?_ ⟨m, e, by rw [abs_of_nonneg h0]; exact h2, he, hf⟩
  rw [hf]
  exact mul_nonneg (by exact_mod_cast h0) (two_zpow_pos e).le

theorem getColorIndex_steps {colors : List Int} {a b t A D P Q : ℚ} (n : Nat)
    (hn : colors.length = n + 1) (hlen : n < 2 ^ 53) (hab : a ≤ b) (hat : a ≤ t)
    (hA : roundMag (t - a) = A) (hD : roundMag (b - a) = D)
    (hP : roundMag (A * (n : ℚ)) = P) (hQ : roundMag (P / D) = Q)
    (hD0 : 0 < D) (hAf : A < 2 ^ 1024) (hDf : D < 2 ^ 1024) (hPf : P < 2 ^ 1024)
    (hQf : Q < 2 ^ 1024) :
    getColorIndex colors (.fin a) (.fin b) (.fin t) = float64ToInt (.fin Q) := by
  have hM : (((colors.length : Int) - 1 : Int) : ℚ) = (n : ℚ) := by
    rw [hn]; push_cast; ring
  have e : scaledF64 colors a b t = Q := by
    unfold scaledF64
    rw [hA, hM, hP, hD, hQ]
  rw [← e]
  apply getColorIndex_fin (by omega) (by omega) hab hat
  · rw [hA]; exact hAf
  · rw [hD]; exact hD0
  · rw [hD]; exact hDf
  · rw [hA, hM, hP]; exact hPf
  · rw [e]; exact hQf

theorem float64ToInt_of_floor {q : ℚ} {i : Int} (h0 : 0 ≤ q) (h1 : (i : ℚ) ≤ q)
    (h2 : q < i + 1) (h3 : i ≤ maxInt) : float64ToInt (.fin q) = some i := by
  have hi : truncate q = i := by
    rw [truncate_of_nonneg h0]
    exact Int.floor_eq_iff.mpr ⟨h1, h2⟩
  have hi0 : 0 ≤ i := by
    rw [← hi, truncate_of_nonneg h0]
    exact Int.floor_nonneg.mpr h0
  rw [float64ToInt_fin, hi, if_pos]
  exact ⟨le_trans (by decide) hi0, h3⟩

theorem big_pos : (0 : ℚ) < 2 ^ 1024 := by positivity

theorem sample_29 :
    getColorIndex (List.replicate 1024 0) (.fin 26) (.fin 32) (.fin 29) = some 511 := by
  rw [getColorIndex_steps (A := 3) (D := 6) (P := 3069) (Q := 1023 / 2) 1023
    (List.length_replicate _ _) (by norm_num) (by norm_num) (by norm_num)
    (roundMag_eq_exact 3 0 (by norm_num) (by norm_num) (by norm_num) (by norm_num) (by norm_num))
    (roundMag_eq_exact 6 0 (by norm_num) (by norm_num) (by norm_num) (by norm_num) (by norm_num))
    (roundMag_eq_exact 3069 0 (by norm_num) (by norm_num) (by norm_num) (by norm_num)
      (by norm_num))
    (roundMag_eq_exact 1023 (-1) (by norm_num) (by norm_num) (by norm_num) (by norm_num)
      (by norm_num))
    (by norm_num) (by norm_num) (by norm_num) (by norm_num) (by norm_num)]
  exact float64ToInt_of_floor (by norm_num) (by norm_num) (by norm_num) (by decide)

/-! ## Operations with an exact result -/

theorem sub_fin_exact {x y : ℚ} (h : IsF64 (x - y)) :
    F64.sub (.fin x) (.fin y) = .fin (x - y) := by
  simp only [F64.sub]
  exact roundF64_isF64 h

theorem mul_fin_exact {x y : ℚ} (h : IsF64 (x * y)) (h0 : x * y ≠ 0) :
    F64.mul (.fin x) (.fin y) = .fin (x * y) := by
  simp only [F64.mul, F64.toRat?]
  rw [if_neg h0]
  exact roundF64_isF64 h

theorem div_fin_exact {x y : ℚ} (h : IsF64 (x / y)) (hx : x ≠ 0) (hy : y ≠ 0) :
    F64.div (.fin x) (.fin y) = .fin (x / y) := by
  simp only [F64.div, F64.toRat?]
  rw [if_neg hy, if_neg hx]
  exact roundF64_isF64 h

theorem intToFloat64_exact {n : Int} (h1 : -(2 ^ 53) < n) (h2 : n < 2 ^ 53) :
    intToFloat64 n = .fin (n : ℚ) :=
  roundF64_isF64 (IsF64.intCast (abs_lt.mpr ⟨h1, h2⟩))

theorem float64ToInt_nonfinite {x : F64} (h : x.toRat? = none) : float64ToInt x = none := by
  simp only [float64ToInt, h]

/-- A division by the zero `+0` has no finite result. -/
theorem div_zero_toRat (x : F64) : (F64.div x (.fin 0)).toRat? = none := by
  cases x with
  | fin q =>
    by_cases h : q = 0
    · subst h
      simp [F64.div, F64.toRat?]
    · by_cases hs : q < 0 <;>
        simp [F64.div, F64.toRat?, h, hs, signedInf, F64.signBit]
  | negZero => simp [F64.div, F64.toRat?]
  | posInf => simp [F64.div, F64.toRat?, signedInf, F64.signBit]
  | negInf => simp [F64.div, F64.toRat?, signedInf, F64.signBit]
  | nan => simp [F64.div, F64.toRat?]

theorem getColorIndex_equal_range (colors : List Int) {m t : ℚ} (h : m ≤ t) :
    getColorIndex colors (.fin m) (.fin m) (.fin t) = none := by
  have hlt : F64.lt (.fin t) (.fin m) = false := by
    simp only [F64.lt, decide_eq_false_iff_not, not_lt]
    exact h
  have hz : F64.sub (.fin m) (.fin m) = .fin 0 := by
    simp only [F64.sub, sub_self]
    unfold roundF64
    rw [if_neg (lt_irrefl 0), roundMag_zero, if_neg (not_le.mpr big_pos)]
  unfold getColorIndex
  rw [hlt, hz]
  exact float64ToInt_nonfinite (div_zero_toRat _)

theorem sample_reversed :
    getColorIndex (List.replicate 1024 0) (.fin 32) (.fin 26) (.fin 33) = some (-170) := by
  have hlt : F64.lt (.fin 33) (.fin 32) = false := by
    simp only [F64.lt, decide_eq_false_iff_not, not_lt]
    norm_num
  have h1 : F64.sub (.fin 33) (.fin 32) = .fin 1 := by
    rw [sub_fin_exact (isF64_of_eq 1 0 (by norm_num) (by norm_num) (by norm_num)
      (by norm_num) (by norm_num))]
    norm_num
  have h2 : intToFloat64 (((List.replicate 1024 (0 : Int)).length : Int) - 1) = .fin 1023 := by
    rw [List.length_replicate, intToFloat64_exact (by norm_num) (by norm_num)]
    norm_num
  have h3 : F64.mul (.fin 1) (.fin 1023) = .fin 1023 := by
    rw [mul_fin_exact (isF64_of_eq 1023 0 (by norm_num) (by norm_num) (by norm_num)
      (by norm_num) (by norm_num)) (by norm_num)]
    norm_num
  have h4 : F64.sub (.fin 26) (.fin 32) = .fin (-6) := by
    rw [sub_fin_exact (isF64_of_eq (-6) 0 (by norm_num) (by norm_num) (by norm_num)
      (by norm_num) (by norm_num))]
    norm_num
  have h5 : F64.div (.fin 1023) (.fin (-6)) = .fin (-341 / 2) := by
    rw [div_fin_exact (isF64_of_eq (-341) (-1) (by norm_num) (by norm_num) (by norm_num)
      (by norm_num) (by norm_num)) (by norm_num) (by norm_num)]
    norm_num
  have h6 : truncate (-341 / 2) = -170 := by
    rw [truncate_of_nonpos (by norm_num), Int.ceil_eq_iff]
    norm_num
  unfold getColorIndex
  rw [hlt, h1, h2, h3, h4, h5, float64ToInt_fin, h6]
  rfl

theorem div_posInf_toRat (y : F64) : (F64.div .posInf y).toRat? = none := by
  cases y with
  | fin q => by_cases hs : q < 0 <;> simp [F64.div, F64.toRat?, hs, signedInf, F64.signBit]
  | negZero => simp [F64.div, F64.toRat?, signedInf, F64.signBit]
  | posInf => simp [F64.div, F64.toRat?]
  | negInf => simp [F64.div, F64.toRat?]
  | nan => simp [F64.div, F64.toRat?]

/-- When the product `(temp - min) * (n - 1)` overflows, the index is undefined. -/
theorem getColorIndex_overflow {colors : List Int} {a t A : ℚ} (b : F64) (n : Nat)
    (hn : colors.length = n + 1) (hlen : n < 2 ^ 53) (hat : a ≤ t)
    (hA : roundMag (t - a) = A) (hAf : A < 2 ^ 1024)
    (hover : 2 ^ 1024 ≤ roundMag (A * (n : ℚ))) :
    getColorIndex colors (.fin a) b (.fin t) = none := by
  have hlt : F64.lt (.fin t) (.fin a) = false := by
    simp only [F64.lt, decide_eq_false_iff_not, not_lt]
    exact hat
  have hA0 : 0 ≤ A := by rw [← hA]; exact roundMag_nonneg (sub_nonneg.mpr hat)
  have hM : intToFloat64 ((colors.length : Int) - 1) = .fin (n : ℚ) := by
    rw [hn]
    have e : ((n + 1 : Nat) : Int) - 1 = (n : Int) := by push_cast; ring
    rw [e, intToFloat64_exact (by omega) (by exact_mod_cast hlen)]
    norm_num
  have hne : A * (n : ℚ) ≠ 0 := by
    intro h0
    rw [h0, roundMag_zero] at hover
    exact absurd hover (not_le.mpr big_pos)
  have hmul : F64.mul (.fin A) (.fin (n : ℚ)) = .posInf := by
    simp only [F64.mul, F64.toRat?]
    rw [if_neg hne]
    exact roundF64_overflow (mul_nonneg hA0 (Nat.cast_nonneg n)) hover
  unfold getColorIndex
  rw [hlt, hM, sub_fin_nonneg hat (by rw [hA]; exact hAf), hA, hmul]
  exact float64ToInt_nonfinite (div_posInf_toRat _)

theorem getColorIndex_of_lt {colors : List Int} {minTemp maxTemp temp : F64}
    (h : F64.lt temp minTemp = true) : getColorIndex colors minTemp maxTemp temp = some 0 := by
  unfold getColorIndex
  rw [if_pos h]

theorem sample_20 :
    getColorIndex (List.replicate 1024 0) (.fin 26) (.fin 32) (.fin 20) = some 0 :=
  getColorIndex_of_lt (by simp only [F64.lt, decide_eq_true_eq]; norm_num)

theorem sample_32 :
    getColorIndex (List.replicate 1024 0) (.fin 26) (.fin 32) (.fin 32) = some 1023 := by
  rw [getColorIndex_steps (A := 6) (D := 6) (P := 6138) (Q := 1023) 1023
    (List.length_replicate _ _) (by norm_num) (by norm_num) (by norm_num)
    (roundMag_eq_exact 6 0 (by norm_num) (by norm_num) (by norm_num) (by norm_num) (by norm_num))
    (roundMag_eq_exact 6 0 (by norm_num) (by norm_num) (by norm_num) (by norm_num) (by norm_num))
    (roundMag_eq_exact 6138 0 (by norm_num) (by norm_num) (by norm_num) (by norm_num)
      (by norm_num))
    (roundMag_eq_exact 1023 0 (by norm_num) (by norm_num) (by norm_num) (by norm_num)
      (by norm_num))
    (by norm_num) (by norm_num) (by norm_num) (by norm_num) (by norm_num)]
  exact float64ToInt_of_floor (by norm_num) (by norm_num) (by norm_num) (by decide)

theorem sample_40 :
    getColorIndex (List.replicate 1024 0) (.fin 26) (.fin 32) (.fin 40) = some 2387 := by
  rw [getColorIndex_steps (A := 14) (D := 6) (P := 14322) (Q := 2387) 1023
    (List.length_replicate _ _) (by norm_num) (by norm_num) (by norm_num)
    (roundMag_eq_exact 14 0 (by norm_num) (by norm_num) (by norm_num) (by norm_num)
      (by norm_num))
    (roundMag_eq_exact 6 0 (by norm_num) (by norm_num) (by norm_num) (by norm_num) (by norm_num))
    (roundMag_eq_exact 14322 0 (by norm_num) (by norm_num) (by norm_num) (by norm_num)
      (by norm_num))
    (roundMag_eq_exact 2387 0 (by norm_num) (by norm_num) (by norm_num) (by norm_num)
      (by norm_num))
    (by norm_num) (by norm_num) (by norm_num) (by norm_num) (by norm_num)]
  exact float64ToInt_of_floor (by norm_num) (by norm_num) (by norm_num) (by decide)

theorem sample_32_25 :
    getColorIndex (List.replicate 1024 0) (.fin 26) (.fin 32) (.fin (129 / 4)) = some 1065 := by
  rw [getColorIndex_steps (A := 25 / 4) (D := 6) (P := 25575 / 4) (Q := 8525 / 8) 1023
    (List.length_replicate _ _) (by norm_num) (by norm_num) (by norm_num)
    (roundMag_eq_exact 25 (-2) (by norm_num) (by norm_num) (by norm_num) (by norm_num)
      (by norm_num))
    (roundMag_eq_exact 6 0 (by norm_num) (by norm_num) (by norm_num) (by norm_num) (by norm_num))
    (roundMag_eq_exact 25575 (-2) (by norm_num) (by norm_num) (by norm_num) (by norm_num)
      (by norm_num))
    (roundMag_eq_exact 8525 (-3) (by norm_num) (by norm_num) (by norm_num) (by norm_num)
      (by norm_num))
    (by norm_num) (by norm_num) (by norm_num) (by norm_num) (by norm_num)]
  exact float64ToInt_of_floor (by norm_num) (by norm_num) (by norm_num) (by decide)

/-- The reading `28.011730205278592` (the `float64` `7884601107155971 / 2^48`) in the
default range: the product `2.0117... * 1023` is rounded up to 2058 and the index is 343,
while the exact quotient lies below 343. -/
theorem sample_rounded :
    getColorIndex (List.replicate 1024 0) (.fin 26) (.fin 32)
      (.fin (7884601107155971 / 2 ^ 48)) = some 343 := by
  rw [getColorIndex_steps (A := 566251712678915 / 2 ^ 48) (D := 6) (P := 2058) (Q := 343) 1023
    (List.length_replicate _ _) (by norm_num) (by norm_num) (by norm_num)
    (roundMag_eq_exact 566251712678915 (-48) (by norm_num) (by norm_num) (by norm_num)
      (by norm_num) (by norm_num))
    (roundMag_eq_exact 6 0 (by norm_num) (by norm_num) (by norm_num) (by norm_num) (by norm_num))
    (by
      rw [roundMag_eq_of_bounds 11 (-41) 4525589859926016 (by norm_num) (by norm_num)
        (by norm_num) (by rw [abs_lt]; constructor <;> norm_num)]
      norm_num)
    (roundMag_eq_exact 343 0 (by norm_num) (by norm_num) (by norm_num) (by norm_num)
      (by norm_num))
    (by norm_num) (by norm_num) (by norm_num) (by norm_num) (by norm_num)]
  exact float64ToInt_of_floor (by norm_num) (by norm_num) (by norm_num) (by decide)

theorem sample_rounded_exact :
    ⌊scaled (List.replicate 1024 0) 26 32 (7884601107155971 / 2 ^ 48)⌋ = 342 := by
  unfold scaled
  rw [List.length_replicate, Int.floor_eq_iff]
  norm_num

theorem threeColors_index_low :
    getColorIndex [0x0000FF, 0x00FF00, 0xFF0000] (.fin 26) (.fin 32) (.fin 26) = some 0 := by
  rw [getColorIndex_steps (A := 0) (D := 6) (P := 0) (Q := 0) 2
    (by rfl) (by norm_num) (by norm_num) (by norm_num)
    (roundMag_eq_exact 0 0 (by norm_num) (by norm_num) (by norm_num) (by norm_num) (by norm_num))
    (roundMag_eq_exact 6 0 (by norm_num) (by norm_num) (by norm_num) (by norm_num) (by norm_num))
    (roundMag_eq_exact 0 0 (by norm_num) (by norm_num) (by norm_num) (by norm_num) (by norm_num))
    (roundMag_eq_exact 0 0 (by norm_num) (by norm_num) (by norm_num) (by norm_num) (by norm_num))
    (by norm_num) (by norm_num) (by norm_num) (by norm_num) (by norm_num)]
  exact float64ToInt_of_floor (by norm_num) (by norm_num) (by norm_num) (by decide)

theorem threeColors_index_mid :
    getColorIndex [0x0000FF, 0x00FF00, 0xFF0000] (.fin 26) (.fin 32) (.fin 29) = some 1 := by
  rw [getColorIndex_steps (A := 3) (D := 6) (P := 6) (Q := 1) 2
    (by rfl) (by norm_num) (by norm_num) (by norm_num)
    (roundMag_eq_exact 3 0 (by norm_num) (by norm_num) (by norm_num) (by norm_num) (by norm_num))
    (roundMag_eq_exact 6 0 (by norm_num) (by norm_num) (by norm_num) (by norm_num) (by norm_num))
    (roundMag_eq_exact 6 0 (by norm_num) (by norm_num) (by norm_num) (by norm_num) (by norm_num))
    (roundMag_eq_exact 1 0 (by norm_num) (by norm_num) (by norm_num) (by norm_num) (by norm_num))
    (by norm_num) (by norm_num) (by norm_num) (by norm_num) (by norm_num)]
  exact float64ToInt_of_floor (by norm_num) (by norm_num) (by norm_num) (by decide)

theorem threeColors_index_high :
    getColorIndex [0x0000FF, 0x00FF00, 0xFF0000] (.fin 26) (.fin 32) (.fin 32) = some 2 := by
  rw [getColorIndex_steps (A := 6) (D := 6) (P := 12) (Q := 2) 2
    (by rfl) (by norm_num) (by norm_num) (by norm_num)
    (roundMag_eq_exact 6 0 (by norm_num) (by norm_num) (by norm_num) (by norm_num) (by norm_num))
    (roundMag_eq_exact 6 0 (by norm_num) (by norm_num) (by norm_num) (by norm_num) (by norm_num))
    (roundMag_eq_exact 12 0 (by norm_num) (by norm_num) (by norm_num) (by norm_num)
      (by norm_num))
    (roundMag_eq_exact 2 0 (by norm_num) (by norm_num) (by norm_num) (by norm_num) (by norm_num))
    (by norm_num) (by norm_num) (by norm_num) (by norm_num) (by norm_num)]
  exact float64ToInt_of_floor (by norm_num) (by norm_num) (by norm_num) (by decide)

/-- Range `0 .. 2^1016` with 1024 colours: at the reading `2^1012` the index is 63. -/
theorem sample_wide_low :
    getColorIndex (List.replicate 1024 0) (.fin 0) (.fin (2 ^ 1016)) (.fin (2 ^ 1012))
      = some 63 := by
  rw [getColorIndex_steps (A := 2 ^ 1012) (D := 2 ^ 1016) (P := 1023 * 2 ^ 1012)
    (Q := 1023 / 16) 1023
    (List.length_replicate _ _) (by norm_num) (by positivity) (by positivity)
    (roundMag_eq_exact 1 1012 (by norm_num) (by norm_num) (by norm_num) (by norm_num)
      (by norm_num))
    (roundMag_eq_exact 1 1016 (by norm_num) (by norm_num) (by norm_num) (by norm_num)
      (by norm_num))
    (roundMag_eq_exact 1023 1012 (by norm_num) (by norm_num) (by norm_num) (by norm_num)
      (by norm_num))
    (roundMag_eq_exact 1023 (-4) (by norm_num) (by norm_num) (by norm_num) (by norm_num)
      (by norm_num))
    (by positivity) (by norm_num) (by norm_num) (by norm_num) (by norm_num)]
  exact float64ToInt_of_floor (by norm_num) (by norm_num) (by norm_num) (by decide)

/-- Range `0 .. 2^1016` with 1024 colours: at the reading `2^1015` the product
`2^1015 * 1023` overflows to `+Inf` and the index is undefined. -/
theorem sample_wide_high (b : F64) :
    getColorIndex (List.replicate 1024 0) (.fin 0) b (.fin (2 ^ 1015)) = none := by
  apply getColorIndex_overflow (A := 2 ^ 1015) b 1023 (List.length_replicate _ _)
    (by norm_num) (by positivity)
    (roundMag_eq_exact 1 1015 (by norm_num) (by norm_num) (by norm_num) (by norm_num)
      (by norm_num)) (by norm_num)
  rw [roundMag_eq_exact (f := 1023 * 2 ^ 1015) 1023 1015 (by norm_num) (by norm_num)
    (by norm_num) (by norm_num) (by norm_num)]
  norm_num

/-! ## Claims on the colour mapper -/

/-- C1 (evaluation of the code at the failing input): with 1024 colours and the range
26..32, the readings 32.25 and 40 are mapped to the indices 1065 and 2387, beyond the
last entry 1023, and the lookup `colors[2387]` panics. -/
theorem getColorIndex_above_max_overruns :
    getColorIndex (List.replicate 1024 0) (.fin 26) (.fin 32) (.fin (129 / 4)) = some 1065 ∧
      getColorIndex (List.replicate 1024 0) (.fin 26) (.fin 32) (.fin 40) = some 2387 ∧
      ¬ ((2387 : Int) ≤ ((List.replicate 1024 (0 : Int)).length : Int) - 1) ∧
      colorAt (List.replicate 1024 0)
          (getColorIndex (List.replicate 1024 0) (.fin 26) (.fin 32) (.fin 40))
        = .error (.paletteIndexOutOfRange 2387) := by
  refine ⟨sample_32_25, sample_40, by rw [List.length_replicate]; decide, ?_⟩
  rw [sample_40]
  have hnone : (List.replicate 1024 (0 : Int))[(2387 : Int).toNat]? = none :=
    List.getElem?_eq_none (by rw [List.length_replicate]; decide)
  simp only [colorAt, hnone]
  rfl

/-- Inside the range, without overflow, the index is defined and lies in the palette. -/
theorem getColorIndex_in_range {colors : List Int} {a b t : ℚ}
    (ha : IsF64 a) (hb : IsF64 b) (hn : 1 ≤ colors.length) (hlen : colors.length ≤ 2 ^ 52)
    (hr : a < b) (hlo : a ≤ t) (hhi : t ≤ b)
    (hfin : (b - a) * (colors.length : ℚ) < 2 ^ 1023) :
    getColorIndex colors (.fin a) (.fin b) (.fin t)
        = some (truncate (scaledF64 colors a b t)) ∧
      0 ≤ truncate (scaledF64 colors a b t) ∧
      truncate (scaledF64 colors a b t) ≤ (colors.length : Int) - 1 := by
  obtain ⟨hA, hD0, hD, hP, hQ⟩ := scaledF64_le ha hb hn hlen hr hlo hhi hfin
  have hlen' : (colors.length : Int) ≤ 2 ^ 52 := by exact_mod_cast hlen
  have hq0 : 0 ≤ scaledF64 colors a b t := roundMag_nonneg (div_nonneg
    (roundMag_nonneg (mul_nonneg (roundMag_nonneg (sub_nonneg.mpr hlo))
      (by
        have : (0 : Int) ≤ (colors.length : Int) - 1 := by omega
        exact_mod_cast this))) hD0.le)
  have ht0 : 0 ≤ truncate (scaledF64 colors a b t) := by
    rw [truncate_of_nonneg hq0]
    exact Int.floor_nonneg.mpr hq0
  have ht1 : truncate (scaledF64 colors a b t) ≤ (colors.length : Int) - 1 := by
    rw [truncate_of_nonneg hq0]
    exact Int.floor_le_iff.mpr (lt_of_le_of_lt hQ (by push_cast; linarith))
  refine ⟨?_, ht0, ht1⟩
  have hQf : scaledF64 colors a b t < 2 ^ 1024 := by
    have h1 : (((colors.length : Int) - 1 : Int) : ℚ) ≤ 2 ^ 52 := by
      have : (colors.length : Int) - 1 ≤ 2 ^ 52 := by omega
      exact_mod_cast this
    have h2 : (2 : ℚ) ^ 52 + 1 / 2 < 2 ^ 1024 := by norm_num
    linarith
  have hlen53 : colors.length ≤ 2 ^ 53 := hlen.trans (by norm_num)
  rw [getColorIndex_fin hn hlen53 hr.le hlo hA hD0 hD hP hQf, float64ToInt_fin, if_pos]
  constructor
  · exact le_trans (by decide) ht0
  · unfold maxInt
    omega

theorem colorAt_of_lt {colors : List Int} {i : Int} (h0 : 0 ≤ i)
    (h1 : i ≤ (colors.length : Int) - 1) :
    ∃ c, colorAt colors (some i) = .ok c ∧ colors[i.toNat]? = some c := by
  have hlt : i.toNat < colors.length := by omega
  refine ⟨colors[i.toNat], ?_, List.getElem?_eq_getElem hlt⟩
  simp only [colorAt, not_lt.mpr h0, if_false, List.getElem?_eq_getElem hlt]

/-- C2 (as stated, refuted): in the range `0 .. 2^1016` with 1024 colours the reading
`2^1016` (the maximum itself) has no defined index: `(temp - min) * 1023` overflows to
`+Inf`. -/
theorem getColorIndex_range_overflow :
    (IsF64 0 ∧ IsF64 (2 ^ 1016)) ∧ (0 : ℚ) < 2 ^ 1016 ∧
      1 ≤ (List.replicate 1024 (0 : Int)).length ∧
      getColorIndex (List.replicate 1024 0) (.fin 0) (.fin (2 ^ 1016)) (.fin (2 ^ 1016))
        = none := by
  refine ⟨⟨isF64_of_eq 0 0 (by norm_num) (by norm_num) (by norm_num) (by norm_num)
      (by norm_num), isF64_of_eq (2 ^ 45) 971 (by norm_num) (by norm_num) (by norm_num)
      (by norm_num) (by norm_num)⟩, by positivity, by rw [List.length_replicate]; decide, ?_⟩
  apply getColorIndex_overflow (A := 2 ^ 1016) _ 1023 (List.length_replicate _ _)
    (by norm_num) (by positivity)
    (roundMag_eq_exact 1 1016 (by norm_num) (by norm_num) (by norm_num) (by norm_num)
      (by norm_num)) (by norm_num)
  rw [roundMag_eq_exact (f := 1023 * 2 ^ 1016) 1023 1016 (by norm_num) (by norm_num)
    (by norm_num) (by norm_num) (by norm_num)]
  norm_num

/-- C2 (amended): for `float64` values `min < max` and a reading `min ≤ temp ≤ max`, a palette of
`1 ≤ n ≤ 2^52` colours and a range with `(max - min) * n < 2^1023` (no overflow), the
index is defined, `0 ≤ index ≤ n - 1`, and the lookup `colors[index]` succeeds. -/
theorem getColorIndex_within_palette (colors : List Int) (a b t : ℚ)
    (ha : IsF64 a) (hb : IsF64 b)
    (hn : 1 ≤ colors.length) (hlen : colors.length ≤ 2 ^ 52)
    (hr : a < b) (hlo : a ≤ t) (hhi : t ≤ b)
    (hfin : (b - a) * (colors.length : ℚ) < 2 ^ 1023) :
    ∃ i c, getColorIndex colors (.fin a) (.fin b) (.fin t) = some i ∧
      0 ≤ i ∧ i ≤ (colors.length : Int) - 1 ∧
      colorAt colors (getColorIndex colors (.fin a) (.fin b) (.fin t)) = .ok c := by
  obtain ⟨he, h0, h1⟩ := getColorIndex_in_range ha hb hn hlen hr hlo hhi hfin
  obtain ⟨c, hc, _⟩ := colorAt_of_lt h0 h1
  exact ⟨_, c, he, h0, h1, by rw [he]; exact hc⟩

theorem isF64_26 : IsF64 26 :=
  isF64_of_eq 26 0 (by norm_num) (by norm_num) (by norm_num) (by norm_num) (by norm_num)

theorem isF64_32 : IsF64 32 :=
  isF64_of_eq 32 0 (by norm_num) (by norm_num) (by norm_num) (by norm_num) (by norm_num)

theorem isF64_29 : IsF64 29 :=
  isF64_of_eq 29 0 (by norm_num) (by norm_num) (by norm_num) (by norm_num) (by norm_num)

theorem getColorIndex_within_palette_witness :
    ∃ i c, getColorIndex (List.replicate 1024 0) (.fin 26) (.fin 32) (.fin 29) = some i ∧
      0 ≤ i ∧ i ≤ ((List.replicate 1024 (0 : Int)).length : Int) - 1 ∧
      colorAt (List.replicate 1024 0)
        (getColorIndex (List.replicate 1024 0) (.fin 26) (.fin 32) (.fin 29)) = .ok c :=
  getColorIndex_within_palette (List.replicate 1024 0) 26 32 29 isF64_26 isF64_32
    (by rw [List.length_replicate]; decide) (by rw [List.length_replicate]; norm_num)
    (by norm_num) (by norm_num) (by norm_num)
    (by rw [List.length_replicate]; norm_num)

/-- C3: a reading below `min` is mapped to index 0, whatever the palette and `max`. -/
theorem getColorIndex_below_min (colors : List Int) (minTemp maxTemp temp : F64)
    (h : F64.lt temp minTemp = true) :
    getColorIndex colors minTemp maxTemp temp = some 0 := by
  simp only [getColorIndex, h, if_true]

theorem getColorIndex_below_min_witness :
    getColorIndex (List.replicate 1024 0) (.fin 26) (.fin 32) (.fin 20) = some 0 :=
  getColorIndex_below_min (List.replicate 1024 0) (.fin 26) (.fin 32) (.fin 20)
    (by simp only [F64.lt, decide_eq_true_eq]; norm_num)

/-- C4 (as stated, refuted): with the reversed range 32..26 the reading 33 is mapped to
-170, the quotient -170.5 truncated toward zero, not to its floor -171; in the default
range 26..32 the `float64` reading 28.011730205278592 is mapped to 343 although the
floor of the exact quotient is 342; and in the range `0 .. 2^1016` the reading `2^1015`
has no defined index. -/
theorem getColorIndex_ne_floor :
    ((32 : ℚ) ≤ 33 ∧ (32 : ℚ) ≠ 26) ∧
      getColorIndex (List.replicate 1024 0) (.fin 32) (.fin 26) (.fin 33) = some (-170) ∧
      ⌊scaled (List.replicate 1024 0) 32 26 33⌋ = -171 ∧
      getColorIndex (List.replicate 1024 0) (.fin 26) (.fin 32)
        (.fin (7884601107155971 / 2 ^ 48)) = some 343 ∧
      ⌊scaled (List.replicate 1024 0) 26 32 (7884601107155971 / 2 ^ 48)⌋ = 342 ∧
      getColorIndex (List.replicate 1024 0) (.fin 0) (.fin (2 ^ 1016)) (.fin (2 ^ 1015))
        = none := by
  refine ⟨by norm_num, sample_reversed, ?_, sample_rounded, sample_rounded_exact,
    sample_wide_high _⟩
  unfold scaled
  rw [List.length_replicate, Int.floor_eq_iff]
  norm_num

/-- C4 (amended): for `float64` values `min < max` and `temp ≥ min`, a palette of
`1 ≤ n ≤ 2^52` colours, an exact quotient `q = (temp - min) * (n - 1) / (max - min)` of
at most `2^50` and no overflow (`(temp - min) * n < 2^1023`, `max - min < 2^1023`), the
index is defined and is `floor q` up to the rounding of the four `float64` operations:
it is `floor q - 1`, `floor q` or `floor q + 1`.  With 1024 colours and the range 26..32
the readings 20, 29 and 32 are mapped to 0, 511 and 1023. -/
theorem getColorIndex_near_floor (colors : List Int) (a b t : ℚ)
    (ha : IsF64 a) (hb : IsF64 b) (ht : IsF64 t)
    (hn : 1 ≤ colors.length) (hlen : colors.length ≤ 2 ^ 52)
    (hr : a < b) (hlo : a ≤ t)
    (hq : (t - a) * (((colors.length : Int) - 1 : Int) : ℚ) / (b - a) ≤ 2 ^ 50)
    (hfinA : (t - a) * (colors.length : ℚ) < 2 ^ 1023) (hfinD : b - a < 2 ^ 1023) :
    (∃ i, getColorIndex colors (.fin a) (.fin b) (.fin t) = some i ∧
        ⌊(t - a) * (((colors.length : Int) - 1 : Int) : ℚ) / (b - a)⌋ - 1 ≤ i ∧
        i ≤ ⌊(t - a) * (((colors.length : Int) - 1 : Int) : ℚ) / (b - a)⌋ + 1) ∧
      (getColorIndex (List.replicate 1024 0) (.fin 26) (.fin 32) (.fin 20) = some 0 ∧
        getColorIndex (List.replicate 1024 0) (.fin 26) (.fin 32) (.fin 29) = some 511 ∧
        getColorIndex (List.replicate 1024 0) (.fin 26) (.fin 32) (.fin 32) = some 1023) := by
  refine ⟨?_, sample_20, sample_29, sample_32⟩
  change scaled colors a b t ≤ 2 ^ 50 at hq
  change ∃ i, getColorIndex colors (.fin a) (.fin b) (.fin t) = some i ∧
    ⌊scaled colors a b t⌋ - 1 ≤ i ∧ i ≤ ⌊scaled colors a b t⌋ + 1
  obtain ⟨hA, hD0, hD, hP, hlo', hhi'⟩ :=
    scaledF64_near ha hb ht hn hlen hr hlo hq hfinA hfinD
  have hq0 : 0 ≤ scaledF64 colors a b t := roundMag_nonneg (div_nonneg
    (roundMag_nonneg (mul_nonneg (roundMag_nonneg (sub_nonneg.mpr hlo))
      (by
        have : (0 : Int) ≤ (colors.length : Int) - 1 := by omega
        exact_mod_cast this))) hD0.le)
  have hQf : scaledF64 colors a b t < 2 ^ 1024 := by
    have h2 : (2 : ℚ) ^ 50 + 1 < 2 ^ 1024 := by norm_num
    linarith
  have hlen53 : colors.length ≤ 2 ^ 53 := hlen.trans (by norm_num)
  have hfl : truncate (scaledF64 colors a b t) = ⌊scaledF64 colors a b t⌋ :=
    truncate_of_nonneg hq0
  have h1 : ⌊scaled colors a b t⌋ - 1 ≤ ⌊scaledF64 colors a b t⌋ := by
    have : ⌊scaled colors a b t - 1⌋ ≤ ⌊scaledF64 colors a b t⌋ := Int.floor_mono hlo'.le
    rwa [Int.floor_sub_one] at this
  have h2 : ⌊scaledF64 colors a b t⌋ ≤ ⌊scaled colors a b t⌋ + 1 := by
    have : ⌊scaledF64 colors a b t⌋ ≤ ⌊scaled colors a b t + 1⌋ := Int.floor_mono hhi'.le
    rwa [Int.floor_add_one] at this
  have h3 : ⌊scaled colors a b t⌋ ≤ 2 ^ 50 := by
    have : ⌊scaled colors a b t⌋ ≤ ⌊((2 ^ 50 : Int) : ℚ)⌋ :=
      Int.floor_mono (by push_cast; exact hq)
    rwa [Int.floor_intCast] at this
  refine ⟨⌊scaledF64 colors a b t⌋, ?_, h1, h2⟩
  rw [getColorIndex_fin hn hlen53 hr.le hlo hA hD0 hD hP hQf, float64ToInt_fin, hfl, if_pos]
  constructor
  · exact le_trans (by decide) (Int.floor_nonneg.mpr hq0)
  · unfold maxInt
    omega

theorem getColorIndex_near_floor_witness :
    ∃ i, getColorIndex (List.replicate 1024 0) (.fin 26) (.fin 32) (.fin 29) = some i ∧
      ⌊((29 : ℚ) - 26) * ((((List.replicate 1024 (0 : Int)).length : Int) - 1 : Int) : ℚ)
          / (32 - 26)⌋ - 1 ≤ i ∧
      i ≤ ⌊((29 : ℚ) - 26) * ((((List.replicate 1024 (0 : Int)).length : Int) - 1 : Int) : ℚ)
          / (32 - 26)⌋ + 1 :=
  (getColorIndex_near_floor (List.replicate 1024 0) 26 32 29 isF64_26 isF64_32 isF64_29
    (by rw [List.length_replicate]; decide) (by rw [List.length_replicate]; norm_num)
    (by norm_num) (by norm_num)
    (by rw [List.length_replicate]; norm_num)
    (by rw [List.length_replicate]; norm_num) (by norm_num)).1

/-- C5 (as stated, refuted): in the range `0 .. 2^1016` with 1024 colours the reading
`2^1012` is mapped to 63, and the larger reading `2^1015`, still inside the range, has no
defined index: the product `2^1015 * 1023` overflows to `+Inf`. -/
theorem getColorIndex_not_monotone :
    ((0 : ℚ) ≤ 2 ^ 1012 ∧ (2 : ℚ) ^ 1012 ≤ 2 ^ 1015 ∧ (2 : ℚ) ^ 1015 ≤ 2 ^ 1016) ∧
      getColorIndex (List.replicate 1024 0) (.fin 0) (.fin (2 ^ 1016)) (.fin (2 ^ 1012))
        = some 63 ∧
      getColorIndex (List.replicate 1024 0) (.fin 0) (.fin (2 ^ 1016)) (.fin (2 ^ 1015))
        = none :=
  ⟨⟨by positivity, by norm_num, by norm_num⟩, sample_wide_low, sample_wide_high _⟩

theorem scaledF64_mono {colors : List Int} {a b t1 t2 : ℚ} (hn : 1 ≤ colors.length)
    (hD0 : 0 < roundMag (b - a)) (h1 : a ≤ t1) (h12 : t1 ≤ t2) :
    scaledF64 colors a b t1 ≤ scaledF64 colors a b t2 := by
  have hM : (0 : ℚ) ≤ (((colors.length : Int) - 1 : Int) : ℚ) := by
    have : (0 : Int) ≤ (colors.length : Int) - 1 := by omega
    exact_mod_cast this
  have hA1 : 0 ≤ t1 - a := sub_nonneg.mpr h1
  have hA : roundMag (t1 - a) ≤ roundMag (t2 - a) := roundMag_mono hA1 (by linarith)
  have hA0 : 0 ≤ roundMag (t1 - a) := roundMag_nonneg hA1
  have hP : roundMag (roundMag (t1 - a) * (((colors.length : Int) - 1 : Int) : ℚ))
      ≤ roundMag (roundMag (t2 - a) * (((colors.length : Int) - 1 : Int) : ℚ)) :=
    roundMag_mono (mul_nonneg hA0 hM) (mul_le_mul_of_nonneg_right hA hM)
  have hP0 : 0 ≤ roundMag (roundMag (t1 - a) * (((colors.length : Int) - 1 : Int) : ℚ)) :=
    roundMag_nonneg (mul_nonneg hA0 hM)
  exact roundMag_mono (div_nonneg hP0 hD0.le) (div_le_div_of_nonneg_right hP hD0.le)

/-- C5 (amended): for `float64` values `min < max` and `min ≤ t1 ≤ t2 ≤ max`, a palette
of `1 ≤ n ≤ 2^52` colours and a range with `(max - min) * n < 2^1023` (no overflow), both
indices are defined and the index of `t1` is at most the index of `t2`. -/
theorem getColorIndex_monotone (colors : List Int) (a b t1 t2 : ℚ)
    (ha : IsF64 a) (hb : IsF64 b)
    (hn : 1 ≤ colors.length) (hlen : colors.length ≤ 2 ^ 52)
    (hr : a < b) (h1 : a ≤ t1) (h12 : t1 ≤ t2) (h2 : t2 ≤ b)
    (hfin : (b - a) * (colors.length : ℚ) < 2 ^ 1023) :
    ∃ i1 i2, getColorIndex colors (.fin a) (.fin b) (.fin t1) = some i1 ∧
      getColorIndex colors (.fin a) (.fin b) (.fin t2) = some i2 ∧ i1 ≤ i2 := by
  obtain ⟨e1, _, _⟩ := getColorIndex_in_range ha hb hn hlen hr h1 (h12.trans h2) hfin
  obtain ⟨e2, _, _⟩ := getColorIndex_in_range ha hb hn hlen hr (h1.trans h12) h2 hfin
  obtain ⟨_, hD0, _, _, _⟩ := scaledF64_le ha hb hn hlen hr h1 (h12.trans h2) hfin
  exact ⟨_, _, e1, e2, truncate_mono (scaledF64_mono hn hD0 h1 h12)⟩

theorem getColorIndex_monotone_witness :
    ∃ i1 i2, getColorIndex (List.replicate 1024 0) (.fin 26) (.fin 32) (.fin 27) = some i1 ∧
      getColorIndex (List.replicate 1024 0) (.fin 26) (.fin 32) (.fin 29) = some i2 ∧
      i1 ≤ i2 :=
  getColorIndex_monotone (List.replicate 1024 0) 26 32 27 29 isF64_26 isF64_32
    (by rw [List.length_replicate]; decide) (by rw [List.length_replicate]; norm_num)
    (by norm_num) (by norm_num) (by norm_num) (by norm_num)
    (by rw [List.length_replicate]; norm_num)

/-! ## Claims on the start-up -/

theorem roundF64_30 : roundF64 30 = .fin 30 :=
  roundF64_isF64 (isF64_of_eq 30 0 (by norm_num) (by norm_num) (by norm_num) (by norm_num)
    (by norm_num))

theorem roundF64_31 : roundF64 31 = .fin 31 :=
  roundF64_isF64 (isF64_of_eq 31 0 (by norm_num) (by norm_num) (by norm_num) (by norm_num)
    (by norm_num))

theorem roundF64_32 : roundF64 32 = .fin 32 := roundF64_isF64 isF64_32

theorem roundF64_26 : roundF64 26 = .fin 26 := roundF64_isF64 isF64_26

theorem floatFlag_number {q : ℚ} {x : ℚ} (d : F64) (h : roundF64 q = .fin x) :
    floatFlag (.given (.number q)) d = .ok (.fin x) := by
  simp only [floatFlag, h]

/-- C8 (as stated, refuted): started in mock mode with `-min 30 -max 30`, `main` accepts
the configuration and `getColorIndex` then divides by `max - min = 0`; started with
`-min 32 -max 26` it accepts the configuration too and the divisor is `-6`. -/
theorem main_accepts_degenerate_range :
    main { min := .given (.number 30), max := .given (.number 30), mock := .given true } false
        = .ok { fps := 100, minTemp := .fin 30, maxTemp := .fin 30, newSize := 360,
                mock := true } ∧
      F64.sub (.fin 30) (.fin 30) = .fin 0 ∧
      getColorIndex (List.replicate 1024 0) (.fin 30) (.fin 30) (.fin 30) = none ∧
      main { min := .given (.number 32), max := .given (.number 26), mock := .given true } false
        = .ok { fps := 100, minTemp := .fin 32, maxTemp := .fin 26, newSize := 360,
                mock := true } ∧
      F64.sub (.fin 26) (.fin 32) = .fin (-6) ∧
      getColorIndex (List.replicate 1024 0) (.fin 32) (.fin 26) (.fin 33) = some (-170) := by
  refine ⟨?_, ?_, getColorIndex_equal_range _ (le_refl _), ?_, ?_, sample_reversed⟩
  · simp only [main, parseFlags, intFlag, boolFlag, floatFlag_number _ roundF64_30]
    rfl
  · rw [sub_fin_exact (isF64_of_eq 0 0 (by norm_num) (by norm_num) (by norm_num)
      (by norm_num) (by norm_num))]
    norm_num
  · simp only [main, parseFlags, intFlag, boolFlag, floatFlag_number _ roundF64_32,
      floatFlag_number _ roundF64_26]
    rfl
  · rw [sub_fin_exact (isF64_of_eq (-6) 0 (by norm_num) (by norm_num) (by norm_num)
      (by norm_num) (by norm_num))]
    norm_num

theorem parseFlags_ok {a : Flags} {c : Config} (hp : parseFlags a = .ok c) :
    floatFlag a.min (.fin 26) = .ok c.minTemp ∧ floatFlag a.max (.fin 32) = .ok c.maxTemp := by
  unfold parseFlags at hp
  cases hu : a.undeclared with
  | true =>
    simp only [hu, if_true] at hp
    cases hp
  | false =>
    cases h1 : intFlag a.f 100 with
    | error e => simp [hu, h1, bind, Except.bind] at hp
    | ok v1 =>
      cases h2 : floatFlag a.min (.fin 26) with
      | error e => simp [hu, h1, h2, bind, Except.bind, pure, Except.pure] at hp
      | ok v2 =>
        cases h3 : floatFlag a.max (.fin 32) with
        | error e => simp [hu, h1, h2, h3, bind, Except.bind, pure, Except.pure] at hp
        | ok v3 =>
          cases h4 : intFlag a.s 360 with
          | error e => simp [hu, h1, h2, h3, h4, bind, Except.bind, pure, Except.pure] at hp
          | ok v4 =>
            cases h5 : boolFlag a.mock false with
            | error e =>
              simp [hu, h1, h2, h3, h4, h5, bind, Except.bind, pure, Except.pure] at hp
            | ok v5 =>
              simp [hu, h1, h2, h3, h4, h5, bind, Except.bind, pure, Except.pure] at hp
              subst hp
              exact ⟨rfl, rfl⟩

/-- C8 (amended): `main` has no check of the temperature range.  Whenever the flag parser
accepts the command line, and mock mode is selected or the sensor initialises, start-up
succeeds and `min` and `max` are the parsed flag values (defaults 26 and 32), whatever
their order.  With `min = max` every reading `temp ≥ min` makes `getColorIndex` divide
by zero, and its index is undefined. -/
theorem main_keeps_range (a : Flags) (sensorOk : Bool) (c : Config)
    (hp : parseFlags a = .ok c) (h : c.mock = true ∨ sensorOk = true) :
    main a sensorOk = .ok c ∧
      floatFlag a.min (.fin 26) = .ok c.minTemp ∧
      floatFlag a.max (.fin 32) = .ok c.maxTemp ∧
      ∀ (colors : List Int) (m t : ℚ), c.minTemp = .fin m → c.maxTemp = .fin m → m ≤ t →
        getColorIndex colors c.minTemp c.maxTemp (.fin t) = none := by
  obtain ⟨hmin, hmax⟩ := parseFlags_ok hp
  refine ⟨?_, hmin, hmax, ?_⟩
  · rcases h with h | h
    · simp [main, hp, h, bind, Except.bind, pure, Except.pure]
    · cases hm : c.mock <;> simp [main, hp, h, hm, bind, Except.bind, pure, Except.pure]
  · intro colors m t h1 h2 hle
    rw [h1, h2]
    exact getColorIndex_equal_range colors hle

theorem main_keeps_range_witness :
    main { min := .given (.number 31), max := .given (.number 31), mock := .given true } false
        = .ok { fps := 100, minTemp := .fin 31, maxTemp := .fin 31, newSize := 360,
                mock := true } ∧
      getColorIndex (List.replicate 1024 0) (.fin 31) (.fin 31) (.fin 40) = none := by
  have hp : parseFlags
      { min := .given (.number 31), max := .given (.number 31), mock := .given true }
      = .ok { fps := 100, minTemp := .fin 31, maxTemp := .fin 31, newSize := 360,
              mock := true } := by
    simp only [parseFlags, intFlag, boolFlag, floatFlag_number _ roundF64_31]
    rfl
  have key := main_keeps_range _ false _ hp (Or.inl rfl)
  exact ⟨key.1, key.2.2.2 (List.replicate 1024 0) 31 40 rfl rfl (by norm_num)⟩

/-! ## Channel extractors and the frame renderer -/

theorem land_255_natCast (n : Nat) : Int.land (n : Int) 0x0000FF = ((n % 256 : Nat) : Int) := by
  have h : Int.land (n : Int) ((255 : Nat) : Int) = ((n &&& 255 : Nat) : Int) := rfl
  have h2 : n &&& 255 = n % 256 := Nat.and_pow_two_sub_one_eq_mod n 8
  rw [← h2]
  exact h

theorem toUint8_natCast (n : Nat) : toUint8 (n : Int) = n % 256 := by
  unfold toUint8
  omega

theorem getB_natCast (n : Nat) : getB (n : Int) = n % 256 := by
  unfold getB
  rw [land_255_natCast, toUint8_natCast]
  omega

theorem getG_natCast (n : Nat) : getG (n : Int) = n / 256 % 256 := by
  unfold getG
  rw [Int.natCast_shiftRight, land_255_natCast, toUint8_natCast, Nat.shiftRight_eq_div_pow]
  omega

theorem getR_natCast (n : Nat) : getR (n : Int) = n / 65536 % 256 := by
  unfold getR
  rw [Int.natCast_shiftRight, land_255_natCast, toUint8_natCast, Nat.shiftRight_eq_div_pow]
  omega

/-- C10: for a packed colour `0 ≤ c < 2^24` the three channels are the three bytes of
`c` and recompose to `c`. -/
theorem channels_recompose (c : Int) (h0 : 0 ≤ c) (h1 : c < 2 ^ 24) :
    (getR c : Int) * 65536 + (getG c : Int) * 256 + (getB c : Int) = c ∧
      (getR c : Int) = c / 65536 ∧ (getG c : Int) = c / 256 % 256 ∧
      (getB c : Int) = c % 256 := by
  obtain ⟨n, rfl⟩ := Int.eq_ofNat_of_zero_le h0
  rw [getR_natCast, getG_natCast, getB_natCast]
  have hn : n < 2 ^ 24 := by exact_mod_cast h1
  norm_num at hn
  refine ⟨?_, ?_, ?_, ?_⟩ <;> omega

theorem channels_recompose_witness :
    ((0 : Int) ≤ 0x123456 ∧ (0x123456 : Int) < 2 ^ 24) ∧
      ((getR 0x123456 : Int) * 65536 + (getG 0x123456 : Int) * 256 + (getB 0x123456 : Int)
          = 0x123456 ∧
        (getR 0x123456 : Int) = 0x123456 / 65536 ∧
        (getG 0x123456 : Int) = 0x123456 / 256 % 256 ∧
        (getB 0x123456 : Int) = 0x123456 % 256) :=
  ⟨by decide, channels_recompose 0x123456 (by decide) (by decide)⟩

example : getR 0x123456 = 0x12 ∧ getG 0x123456 = 0x34 ∧ getB 0x123456 = 0x56 := by decide

theorem painted_length (pix : List Nat) (n : Nat) (c : Int) :
    (painted pix n c).length = pix.length := by
  simp [painted]

theorem painted_getElem? (pix : List Nat) (n : Nat) (c : Int) (hn : n + 4 ≤ pix.length)
    (j : Nat) :
    (painted pix n c)[j]? =
      if j = n then some (getR c) else if j = n + 1 then some (getG c)
      else if j = n + 2 then some (getB c) else if j = n + 3 then some 0xFF
      else pix[j]? := by
  unfold painted
  simp only [List.getElem?_set, List.length_set]
  by_cases h3 : n + 3 = j
  · subst h3
    simp
    omega
  · by_cases h2 : n + 2 = j
    · subst h2
      simp
      omega
    · by_cases h1 : n + 1 = j
      · subst h1
        simp
        omega
      · by_cases h0 : n = j
        · subst h0
          simp
          omega
        · have e0 : ¬ j = n := fun h => h0 h.symm
          have e1 : ¬ j = n + 1 := fun h => h1 h.symm
          have e2 : ¬ j = n + 2 := fun h => h2 h.symm
          have e3 : ¬ j = n + 3 := fun h => h3 h.symm
          simp [h0, h1, h2, h3, e0, e1, e2, e3]

theorem paintCell_ok {colors : List Int} {minTemp maxTemp : F64} {pix : List Nat} {n : Nat}
    {t : F64} {c : Int} (hc : colorAt colors (getColorIndex colors minTemp maxTemp t) = .ok c)
    (hn : n + 4 ≤ pix.length) :
    paintCell colors minTemp maxTemp (pix, n) t = .ok (painted pix n c, n + 4) := by
  have h0 : n < pix.length := by omega
  have h1 : n + 1 < pix.length := by omega
  have h2 : n + 2 < pix.length := by omega
  have h3 : n + 3 < pix.length := by omega
  simp only [paintCell, hc, bind, Except.bind, setPix, List.length_set, h0, h1, h2, h3,
    if_true, painted, pure, Except.pure]

theorem paintCell_inv {colors : List Int} {minTemp maxTemp : F64} {pix : List Nat} {n : Nat}
    {t : F64} {st : List Nat × Nat}
    (h : paintCell colors minTemp maxTemp (pix, n) t = .ok st) :
    n + 4 ≤ pix.length ∧
      ∃ c, colorAt colors (getColorIndex colors minTemp maxTemp t) = .ok c ∧
        st = (painted pix n c, n + 4) := by
  cases hc : colorAt colors (getColorIndex colors minTemp maxTemp t) with
  | error e =>
    simp only [paintCell, hc, bind, Except.bind] at h
    cases h
  | ok c =>
    by_cases hn : n + 4 ≤ pix.length
    · rw [paintCell_ok hc hn] at h
      cases h
      exact ⟨hn, c, rfl, rfl⟩
    · exfalso
      have h3 : ¬ n + 3 < pix.length := by omega
      by_cases h0 : n < pix.length
      · by_cases h1 : n + 1 < pix.length
        · by_cases h2 : n + 2 < pix.length
          · simp only [paintCell, hc, bind, Except.bind, setPix, List.length_set, h0, h1, h2,
              h3, if_true, if_false] at h
            cases h
          · simp only [paintCell, hc, bind, Except.bind, setPix, List.length_set, h0, h1, h2,
              if_true, if_false] at h
            cases h
        · simp only [paintCell, hc, bind, Except.bind, setPix, List.length_set, h0, h1,
            if_true, if_false] at h
          cases h
      · simp only [paintCell, hc, bind, Except.bind, setPix, h0, if_false] at h
        cases h

/-- Painting of a whole grid from cursor `n`: when every reading has a palette colour
and the buffer has room, the fold succeeds, keeps the bytes outside the painted window
and writes the four bytes of cell `k` at offset `n + 4 * k`. -/
theorem foldlM_paintCell_ok (colors : List Int) (minTemp maxTemp : F64) :
    ∀ (grid : List F64) (pix : List Nat) (n : Nat),
      n + 4 * grid.length ≤ pix.length →
      (∀ t ∈ grid, ∃ c, colorAt colors (getColorIndex colors minTemp maxTemp t) = .ok c) →
      ∃ pix', grid.foldlM (paintCell colors minTemp maxTemp) (pix, n)
            = .ok (pix', n + 4 * grid.length) ∧
        pix'.length = pix.length ∧
        (∀ j, j < n ∨ n + 4 * grid.length ≤ j → pix'[j]? = pix[j]?) ∧
        ∀ k t c, grid[k]? = some t →
          colorAt colors (getColorIndex colors minTemp maxTemp t) = .ok c →
          pix'[n + 4 * k]? = some (getR c) ∧ pix'[n + 4 * k + 1]? = some (getG c) ∧
            pix'[n + 4 * k + 2]? = some (getB c) ∧ pix'[n + 4 * k + 3]? = some 0xFF := by
  intro grid
  induction grid with
  | nil =>
    intro pix n _ _
    refine ⟨pix, rfl, rfl, fun _ _ => rfl, ?_⟩
    intro k t c hk
    simp at hk
  | cons t ts ih =>
    intro pix n hroom hcol
    obtain ⟨c, hc⟩ := hcol t (List.mem_cons_self t ts)
    have hlen : (t :: ts).length = ts.length + 1 := rfl
    have hn4 : n + 4 ≤ pix.length := by omega
    have hroom' : n + 4 + 4 * ts.length ≤ (painted pix n c).length := by
      rw [painted_length]; omega
    obtain ⟨pix', hfold, hl, hout, hin⟩ :=
      ih (painted pix n c) (n + 4) hroom'
        (fun u hu => hcol u (List.mem_cons_of_mem t hu))
    refine ⟨pix', ?_, ?_, ?_, ?_⟩
    · rw [List.foldlM_cons, paintCell_ok hc hn4]
      have e : n + 4 * (t :: ts).length = n + 4 + 4 * ts.length := by omega
      rw [e]
      exact hfold
    · rw [hl, painted_length]
    · intro j hj
      rw [hout j (by omega), painted_getElem? pix n c hn4]
      have e0 : ¬ j = n := by omega
      have e1 : ¬ j = n + 1 := by omega
      have e2 : ¬ j = n + 2 := by omega
      have e3 : ¬ j = n + 3 := by omega
      simp only [e0, e1, e2, e3, if_false]
    · intro k u d hk hd
      cases k with
      | zero =>
        simp only [List.getElem?_cons_zero, Option.some.injEq] at hk
        subst hk
        rw [hc] at hd
        cases hd
        have g : ∀ i, i < 4 → pix'[n + i]? = (painted pix n c)[n + i]? :=
          fun i hi => hout (n + i) (Or.inl (by omega))
        refine ⟨?_, ?_, ?_, ?_⟩
        · have := g 0 (by omega)
          simp only [Nat.add_zero, Nat.mul_zero] at this ⊢
          rw [this, painted_getElem? pix n c hn4]
          simp
        · have := g 1 (by omega)
          simp only [Nat.add_zero, Nat.mul_zero] at this ⊢
          rw [this, painted_getElem? pix n c hn4]
          simp
        · have := g 2 (by omega)
          simp only [Nat.add_zero, Nat.mul_zero] at this ⊢
          rw [this, painted_getElem? pix n c hn4]
          simp
        · have := g 3 (by omega)
          simp only [Nat.add_zero, Nat.mul_zero] at this ⊢
          rw [this, painted_getElem? pix n c hn4]
          simp
      | succ k =>
        simp only [List.getElem?_cons_succ] at hk
        have e : n + 4 * (k + 1) = n + 4 + 4 * k := by omega
        rw [e]
        exact hin k u d hk hd

/-- A successful fold has advanced the cursor by four bytes for each reading without
leaving the buffer. -/
theorem foldlM_paintCell_inv (colors : List Int) (minTemp maxTemp : F64) :
    ∀ (grid : List F64) (pix : List Nat) (n : Nat) (st : List Nat × Nat),
      n ≤ pix.length →
      grid.foldlM (paintCell colors minTemp maxTemp) (pix, n) = .ok st →
      n + 4 * grid.length ≤ pix.length := by
  intro grid
  induction grid with
  | nil => intro pix n st hn _; simpa using hn
  | cons t ts ih =>
    intro pix n st hn h
    rw [List.foldlM_cons] at h
    cases hp : paintCell colors minTemp maxTemp (pix, n) t with
    | error e =>
      rw [hp] at h
      cases h
    | ok st1 =>
      rw [hp] at h
      obtain ⟨h4, c, _, rfl⟩ := paintCell_inv hp
      have := ih (painted pix n c) (n + 4) st (by rw [painted_length]; exact h4) h
      rw [painted_length] at this
      simp only [List.length_cons]
      omega

theorem newRGBAPix_eight : newRGBAPix 8 8 = List.replicate 256 0 := rfl

theorem colorAt_of_index {colors : List Int} {o : Option Int}
    (h : ∃ i, o = some i ∧ 0 ≤ i ∧ i < (colors.length : Int)) :
    ∃ i c, o = some i ∧ colors[i.toNat]? = some c ∧ colorAt colors o = .ok c := by
  obtain ⟨i, rfl, h0, h1⟩ := h
  obtain ⟨c, hc, hg⟩ := colorAt_of_lt h0 (by omega : i ≤ (colors.length : Int) - 1)
  exact ⟨i, c, rfl, hg, hc⟩

/-- The painted 8x8 buffer of a grid of at most 64 readings with palette colours. -/
theorem fillPixels_eight (colors : List Int) (grid : List F64) (minTemp maxTemp : F64)
    (hlen : grid.length ≤ 64)
    (hidx : ∀ t ∈ grid, ∃ i, getColorIndex colors minTemp maxTemp t = some i ∧
      0 ≤ i ∧ i < (colors.length : Int)) :
    ∃ pix, fillPixels colors grid minTemp maxTemp 8 8 = .ok pix ∧ pix.length = 256 ∧
      (∀ j, 4 * grid.length ≤ j → j < 256 → pix[j]? = some 0) ∧
      ∀ k t, grid[k]? = some t →
        ∃ i c, getColorIndex colors minTemp maxTemp t = some i ∧
          colors[i.toNat]? = some c ∧
          pix[4 * k]? = some (getR c) ∧ pix[4 * k + 1]? = some (getG c) ∧
          pix[4 * k + 2]? = some (getB c) ∧ pix[4 * k + 3]? = some 0xFF := by
  have hcol : ∀ t ∈ grid, ∃ c,
      colorAt colors (getColorIndex colors minTemp maxTemp t) = .ok c := by
    intro t ht
    obtain ⟨_, c, _, _, hc⟩ := colorAt_of_index (hidx t ht)
    exact ⟨c, hc⟩
  obtain ⟨pix, hfold, hl, hout, hin⟩ :=
    foldlM_paintCell_ok colors minTemp maxTemp grid (List.replicate 256 0) 0
      (by rw [List.length_replicate]; omega) hcol
  refine ⟨pix, ?_, ?_, ?_, ?_⟩
  · simp only [fillPixels, newRGBAPix_eight, hfold, bind, Except.bind, pure, Except.pure]
  · rw [hl, List.length_replicate]
  · intro j hj hj'
    rw [hout j (Or.inr (by omega)), List.getElem?_replicate, if_pos hj']
  · intro k t hk
    obtain ⟨i, c, hi, hg, hc⟩ := colorAt_of_index (hidx t (List.getElem?_mem hk))
    have := hin k t c hk hc
    simp only [Nat.zero_add] at this
    exact ⟨i, c, hi, hg, this⟩

/-- C6: for a grid of 64 readings whose colour indices lie within the palette, the 8x8
buffer painted by `createImage(8, 8)` and handed to the resize filter has 256 bytes and,
for every `k < 64`, bytes `4k .. 4k+3` equal to `getR c, getG c, getB c, 0xFF` with
`c = colors[getColorIndex(grid[k])]`. -/
theorem fillPixels_pixel_order {Img : Type} (resize : Int → List Nat → Img) (newSize : Int)
    (colors : List Int) (grid : List F64) (minTemp maxTemp : F64)
    (hlen : grid.length = 64)
    (hidx : ∀ t ∈ grid, ∃ i, getColorIndex colors minTemp maxTemp t = some i ∧
      0 ≤ i ∧ i < (colors.length : Int)) :
    ∃ pix, fillPixels colors grid minTemp maxTemp 8 8 = .ok pix ∧
      createImage resize colors grid minTemp maxTemp newSize 8 8
        = .ok (resize newSize pix) ∧
      pix.length = 256 ∧
      ∀ k, k < 64 →
        ∃ t i c, grid[k]? = some t ∧ getColorIndex colors minTemp maxTemp t = some i ∧
          colors[i.toNat]? = some c ∧
          pix[4 * k]? = some (getR c) ∧ pix[4 * k + 1]? = some (getG c) ∧
          pix[4 * k + 2]? = some (getB c) ∧ pix[4 * k + 3]? = some 0xFF := by
  obtain ⟨pix, hfill, hl, _, hin⟩ :=
    fillPixels_eight colors grid minTemp maxTemp (le_of_eq hlen) hidx
  refine ⟨pix, hfill, ?_, hl, ?_⟩
  · simp only [createImage, hfill, bind, Except.bind, pure, Except.pure]
  · intro k hk
    have hk' : k < grid.length := by omega
    obtain ⟨i, c, hi, hg, hp⟩ := hin k grid[k] (List.getElem?_eq_getElem hk')
    exact ⟨grid[k], i, c, List.getElem?_eq_getElem hk', hi, hg, hp⟩

theorem fillPixels_pixel_order_witness :
    ∃ pix, fillPixels [0x0000FF, 0x00FF00, 0xFF0000]
          (List.replicate 32 (.fin 26) ++ List.replicate 32 (.fin 32)) (.fin 26) (.fin 32) 8 8
          = .ok pix ∧
      createImage (fun _ p => p) [0x0000FF, 0x00FF00, 0xFF0000]
          (List.replicate 32 (.fin 26) ++ List.replicate 32 (.fin 32)) (.fin 26) (.fin 32)
          360 8 8 = .ok pix ∧
      pix.length = 256 ∧
      ∀ k, k < 64 →
        ∃ t i c, (List.replicate 32 (F64.fin 26) ++ List.replicate 32 (.fin 32))[k]? = some t ∧
          getColorIndex [0x0000FF, 0x00FF00, 0xFF0000] (.fin 26) (.fin 32) t = some i ∧
          [(0x0000FF : Int), 0x00FF00, 0xFF0000][i.toNat]? = some c ∧
          pix[4 * k]? = some (getR c) ∧ pix[4 * k + 1]? = some (getG c) ∧
          pix[4 * k + 2]? = some (getB c) ∧ pix[4 * k + 3]? = some 0xFF :=
  fillPixels_pixel_order (fun _ p => p) 360 [0x0000FF, 0x00FF00, 0xFF0000]
    (List.replicate 32 (.fin 26) ++ List.replicate 32 (.fin 32)) (.fin 26) (.fin 32)
    (by simp)
    (by
      intro t ht
      rcases List.mem_append.mp ht with h | h
      · rw [List.eq_of_mem_replicate h]
        exact ⟨0, threeColors_index_low, by decide, by decide⟩
      · rw [List.eq_of_mem_replicate h]
        exact ⟨2, threeColors_index_high, by decide, by decide⟩)

/-- C7: when all 64 readings equal `t` and the colour index of `t` lies within the
palette, every pixel of the painted 8x8 buffer is `getR c, getG c, getB c, 0xFF` with
the one colour `c = colors[getColorIndex(t)]`. -/
theorem fillPixels_uniform (colors : List Int) (minTemp maxTemp t : F64) (i : Int)
    (hi : getColorIndex colors minTemp maxTemp t = some i)
    (h0 : 0 ≤ i) (h1 : i < (colors.length : Int)) :
    ∃ c pix, colors[i.toNat]? = some c ∧
      fillPixels colors (List.replicate 64 t) minTemp maxTemp 8 8 = .ok pix ∧
      pix.length = 256 ∧
      ∀ k, k < 64 →
        pix[4 * k]? = some (getR c) ∧ pix[4 * k + 1]? = some (getG c) ∧
          pix[4 * k + 2]? = some (getB c) ∧ pix[4 * k + 3]? = some 0xFF := by
  have hidx : ∀ u ∈ List.replicate 64 t, ∃ j,
      getColorIndex colors minTemp maxTemp u = some j ∧ 0 ≤ j ∧ j < (colors.length : Int) := by
    intro u hu
    rw [List.eq_of_mem_replicate hu]
    exact ⟨i, hi, h0, h1⟩
  obtain ⟨pix, hfill, hl, _, hin⟩ :=
    fillPixels_eight colors (List.replicate 64 t) minTemp maxTemp
      (by rw [List.length_replicate]) hidx
  obtain ⟨c, _, hg⟩ := colorAt_of_lt h0 (by omega : i ≤ (colors.length : Int) - 1)
  refine ⟨c, pix, hg, hfill, hl, ?_⟩
  intro k hk
  have hk' : (List.replicate 64 t)[k]? = some t := by
    rw [List.getElem?_replicate, if_pos hk]
  obtain ⟨j, d, hj, hd, hp⟩ := hin k t hk'
  rw [hi] at hj
  cases hj
  rw [hg] at hd
  cases hd
  exact hp

theorem fillPixels_uniform_witness :
    ∃ c pix, [(0x0000FF : Int), 0x00FF00, 0xFF0000][(1 : Int).toNat]? = some c ∧
      fillPixels [0x0000FF, 0x00FF00, 0xFF0000] (List.replicate 64 (.fin 29)) (.fin 26)
        (.fin 32) 8 8 = .ok pix ∧
      pix.length = 256 ∧
      ∀ k, k < 64 →
        pix[4 * k]? = some (getR c) ∧ pix[4 * k + 1]? = some (getG c) ∧
          pix[4 * k + 2]? = some (getB c) ∧ pix[4 * k + 3]? = some 0xFF :=
  fillPixels_uniform [0x0000FF, 0x00FF00, 0xFF0000] (.fin 26) (.fin 32) (.fin 29) 1
    threeColors_index_mid (by decide) (by decide)

/-- C9 (as stated, refuted): with an empty grid, and with a grid of one reading,
`createImage(8, 8)` raises no error and produces an image. -/
theorem createImage_short_grid_accepted :
    createImage (fun _ p => p) [0x0000FF, 0x00FF00, 0xFF0000] [] (.fin 26) (.fin 32) 360 8 8
        = .ok (List.replicate 256 0) ∧
      createImage (fun _ p => p) [0x0000FF, 0x00FF00, 0xFF0000] [.fin 29] (.fin 26) (.fin 32)
          360 8 8
        = .ok ([0, 255, 0, 255] ++ List.replicate 252 0) := by
  constructor
  · rfl
  · simp only [createImage, fillPixels, List.foldlM_cons, List.foldlM_nil, newRGBAPix_eight]
    rw [paintCell_ok (c := 0x00FF00) (by rw [threeColors_index_mid]; rfl)
      (by rw [List.length_replicate]; decide)]
    rfl

/-- C9 (amended): `createImage` has no size check.  A grid of more than 64 readings makes
`createImage(8, 8)` fail with a run-time panic instead of producing an image; a grid of
fewer than 64 readings with colour indices within the palette is accepted: the image is
produced from a buffer whose bytes from `4 * len(grid)` on are zero. -/
theorem createImage_grid_length {Img : Type} (resize : Int → List Nat → Img)
    (newSize : Int) (colors : List Int) (grid : List F64) (minTemp maxTemp : F64) :
    (64 < grid.length →
        ∃ e, createImage resize colors grid minTemp maxTemp newSize 8 8 = .error e) ∧
      (grid.length < 64 →
        (∀ t ∈ grid, ∃ i, getColorIndex colors minTemp maxTemp t = some i ∧
          0 ≤ i ∧ i < (colors.length : Int)) →
        ∃ pix, createImage resize colors grid minTemp maxTemp newSize 8 8
            = .ok (resize newSize pix) ∧
          pix.length = 256 ∧ ∀ j, 4 * grid.length ≤ j → j < 256 → pix[j]? = some 0) := by
  constructor
  · intro hlong
    cases hf : grid.foldlM (paintCell colors minTemp maxTemp) (List.replicate 256 0, 0) with
    | error e =>
      exact ⟨e, by
        simp only [createImage, fillPixels, newRGBAPix_eight, hf, bind, Except.bind]⟩
    | ok st =>
      have := foldlM_paintCell_inv colors minTemp maxTemp grid (List.replicate 256 0) 0 st
        (Nat.zero_le _) hf
      rw [List.length_replicate] at this
      omega
  · intro hshort hidx
    obtain ⟨pix, hfill, hl, hzero, _⟩ :=
      fillPixels_eight colors grid minTemp maxTemp (by omega) hidx
    exact ⟨pix, by simp only [createImage, hfill, bind, Except.bind, pure, Except.pure],
      hl, hzero⟩

theorem createImage_grid_length_witness :
    (64 < (List.replicate 65 (F64.fin 29)).length ∧
      ∃ e, createImage (fun _ p => p) [0x0000FF, 0x00FF00, 0xFF0000]
        (List.replicate 65 (.fin 29)) (.fin 26) (.fin 32) 360 8 8 = .error e) ∧
    ((List.replicate 63 (F64.fin 29)).length < 64 ∧
      ∃ pix, createImage (fun _ p => p) [0x0000FF, 0x00FF00, 0xFF0000]
          (List.replicate 63 (.fin 29)) (.fin 26) (.fin 32) 360 8 8 = .ok pix ∧
        pix.length = 256 ∧
        ∀ j, 4 * (List.replicate 63 (F64.fin 29)).length ≤ j → j < 256 → pix[j]? = some 0) :=
  ⟨⟨by rw [List.length_replicate]; decide,
      (createImage_grid_length (fun _ p => p) 360 [0x0000FF, 0x00FF00, 0xFF0000]
        (List.replicate 65 (.fin 29)) (.fin 26) (.fin 32)).1
        (by rw [List.length_replicate]; decide)⟩,
    ⟨by rw [List.length_replicate]; decide,
      (createImage_grid_length (fun _ p => p) 360 [0x0000FF, 0x00FF00, 0xFF0000]
        (List.replicate 63 (.fin 29)) (.fin 26) (.fin 32)).2
        (by rw [List.length_replicate]; decide)
        (fun t ht => by
          rw [List.eq_of_mem_replicate ht]
          exact ⟨1, threeColors_index_mid, by decide, by decide⟩)⟩⟩

end Thermalcam
